import Mathlib

/-!
Verification development for the polymarket market-making engine.

Shallow embedding of the core subsystems (quote engine, inventory ledger,
risk gate, order manager, paper-trading simulator) over exact rational
arithmetic (the source uses Python `Decimal`, which is exact for the
additions, subtractions and multiplications appearing here; divisions are
modelled exactly in `ℚ`).  Wall-clock timestamps are not modelled; where a
source function derives a quantity from elapsed time, that quantity is
passed as an explicit parameter.
-/

namespace PolyMM

/-- Truncation toward zero, the semantics of Python `int(Decimal)`. -/
def truncQ (q : ℚ) : ℤ := if 0 ≤ q then ⌊q⌋ else ⌈q⌉

/-- Round a rational to the nearest integer with ties going to the even
integer.  This is the semantics of Python `Decimal.quantize(Decimal("1"))`
under the default decimal context, whose rounding mode is ROUND_HALF_EVEN. -/
def roundHalfEven (x : ℚ) : ℤ :=
  if x - ⌊x⌋ < 1/2 then ⌊x⌋
  else if 1/2 < x - ⌊x⌋ then ⌊x⌋ + 1
  else if ⌊x⌋ % 2 = 0 then ⌊x⌋ else ⌊x⌋ + 1

theorem floor_le_roundHalfEven (x : ℚ) : ⌊x⌋ ≤ roundHalfEven x := by
  unfold roundHalfEven
  split_ifs <;> omega

theorem roundHalfEven_le_floor_add_one (x : ℚ) : roundHalfEven x ≤ ⌊x⌋ + 1 := by
  unfold roundHalfEven
  split_ifs <;> omega

theorem roundHalfEven_le (x : ℚ) : (roundHalfEven x : ℚ) ≤ x + 1/2 := by
  have h1 : (⌊x⌋ : ℚ) ≤ x := Int.floor_le x
  have h2 : x < ⌊x⌋ + 1 := Int.lt_floor_add_one x
  unfold roundHalfEven
  split_ifs with ha hb hc <;> push_cast <;> linarith

theorem le_roundHalfEven (x : ℚ) : x - 1/2 ≤ (roundHalfEven x : ℚ) := by
  have h1 : (⌊x⌋ : ℚ) ≤ x := Int.floor_le x
  have h2 : x < ⌊x⌋ + 1 := Int.lt_floor_add_one x
  unfold roundHalfEven
  split_ifs with ha hb hc <;> push_cast <;> linarith

theorem roundHalfEven_mono {x y : ℚ} (h : x ≤ y) : roundHalfEven x ≤ roundHalfEven y := by
  have hf : ⌊x⌋ ≤ ⌊y⌋ := Int.floor_le_floor h
  rcases lt_or_eq_of_le hf with hlt | heq
  · calc roundHalfEven x ≤ ⌊x⌋ + 1 := roundHalfEven_le_floor_add_one x
      _ ≤ ⌊y⌋ := by omega
      _ ≤ roundHalfEven y := floor_le_roundHalfEven y
  · have hxy : x - ⌊x⌋ ≤ y - ⌊y⌋ := by
      rw [← heq]
      linarith
    unfold roundHalfEven
    rw [← heq]
    split_ifs <;> first | omega | linarith

end PolyMM

namespace PolyMM

/-! Data model from `src/client.py`: order-book levels and derived prices.
Fields that no claim touches (token ids, timestamps, market ids) are
omitted. -/

/-- One price level of an order book (an entry of the `bids`/`asks` lists). -/
structure Level where
  price : ℚ
  size : ℚ
deriving DecidableEq, Repr

/-- Order book snapshot: bids are stored best-first (descending), asks
best-first (ascending), as in `OrderBook`. -/
structure OrderBook where
  bids : List Level
  asks : List Level
deriving DecidableEq, Repr

def OrderBook.best_bid (b : OrderBook) : Option ℚ := b.bids.head?.map Level.price

def OrderBook.best_ask (b : OrderBook) : Option ℚ := b.asks.head?.map Level.price

/-- Mid price.  The source guard is `if self.best_bid and self.best_ask:`,
Python truthiness, so a best price equal to zero also yields `None`. -/
def OrderBook.mid_price (b : OrderBook) : Option ℚ :=
  match b.best_bid, b.best_ask with
  | some bb, some ba => if bb = 0 ∨ ba = 0 then none else some ((bb + ba) / 2)
  | _, _ => none

/-- Volume-weighted mid over the top `depth` levels of each side. -/
def OrderBook.weighted_mid (b : OrderBook) (depth : ℕ) : Option ℚ :=
  if b.bids = [] ∨ b.asks = [] then none
  else
    let bid_value := ((b.bids.take depth).map (fun l => l.price * l.size)).sum
    let bid_size := ((b.bids.take depth).map Level.size).sum
    let ask_value := ((b.asks.take depth).map (fun l => l.price * l.size)).sum
    let ask_size := ((b.asks.take depth).map Level.size).sum
    if bid_size = 0 ∨ ask_size = 0 then b.mid_price
    else some ((bid_value / bid_size + ask_value / ask_size) / 2)

/-- Order / trade side. -/
inductive Side where
  | buy
  | sell
deriving DecidableEq, Repr

end PolyMM

namespace PolyMM

/-! Quote engine from `src/quote_engine.py`. -/

/-- A single bid or ask quote. -/
structure Quote where
  price : ℚ
  size : ℚ
  side : Side
deriving DecidableEq, Repr

/-- A set of quotes for a market.  The `token_id`, `timestamp` and `reason`
fields carry no quoted-price semantics and are omitted. -/
structure QuoteSet where
  bids : List Quote
  asks : List Quote
  fair_value : ℚ
  spread : ℚ
deriving DecidableEq, Repr

/-- Configuration and mutable state of `QuoteEngine` that
`calculate_quotes` reads: the constructor parameters plus the
`_adverse_selection_factor` state variable. -/
structure QuoteEngine where
  base_spread : ℚ
  min_spread : ℚ
  max_spread : ℚ
  min_price : ℚ
  max_price : ℚ
  num_levels : ℕ
  level_spacing : ℚ
  default_size : ℚ
  inventory_skew_threshold : ℤ
  use_weighted_mid : Bool
  adverse_selection_factor : ℚ
deriving DecidableEq, Repr

/-- Engine with the constructor defaults and a given adverse-selection
factor (its initial value is 1). -/
def engineWithAdverse (a : ℚ) : QuoteEngine :=
  ⟨2/100, 1/100, 10/100, 5/100, 95/100, 3, 1/100, 20, 100, true, a⟩

def defaultEngine : QuoteEngine := engineWithAdverse 1

/-- Fair value: mid or weighted mid, inventory adjustment above the skew
threshold, clamp to the configured price range. -/
def QuoteEngine.calculate_fair_value (e : QuoteEngine) (orderbook : OrderBook)
    (inventory : ℤ) : Option ℚ :=
  match orderbook.mid_price with
  | none => none
  | some mid =>
    let fv0 : ℚ := if e.use_weighted_mid then (orderbook.weighted_mid 3).getD mid else mid
    let fv1 : ℚ :=
      if e.inventory_skew_threshold < |inventory| then
        fv0 - (inventory : ℚ) * (1/10000)
      else fv0
    some (max e.min_price (min e.max_price fv1))

/-- Spread shaping: base spread times volatility, inventory, expiry,
thin-book and adverse-selection factors, clamped to the spread bounds.
`hours_to_expiry` is a Python float in the source; it is modelled as an
exact rational. -/
def QuoteEngine.calculate_spread (e : QuoteEngine) (orderbook : OrderBook)
    (inventory : ℤ) (volatility_factor : ℚ) (hours_to_expiry : Option ℚ) : ℚ :=
  let s0 := e.base_spread * volatility_factor
  let s1 :=
    if e.inventory_skew_threshold < |inventory| then
      s0 * (1 + (|inventory| : ℚ) / ((e.inventory_skew_threshold : ℚ) * 4))
    else s0
  let s2 :=
    match hours_to_expiry with
    | some h => if h < 48 then s1 * (1 + 1 / max 1 (h / 12)) else s1
    | none => s1
  let bid_depth := ((orderbook.bids.take 5).map Level.size).sum
  let ask_depth := ((orderbook.asks.take 5).map Level.size).sum
  let s3 := if bid_depth < 100 ∨ ask_depth < 100 then s2 * (3/2) else s2
  let s4 := s3 * e.adverse_selection_factor
  max e.min_spread (min e.max_spread s4)

/-- Inventory skew: shift both sides by `-(inventory/threshold) * 0.005`
when `|inventory|` exceeds the threshold. -/
def QuoteEngine.calculate_inventory_skew (e : QuoteEngine) (inventory : ℤ) : ℚ × ℚ :=
  if |inventory| ≤ e.inventory_skew_threshold then (0, 0)
  else
    let skew_multiple : ℚ := (inventory : ℚ) / (e.inventory_skew_threshold : ℚ)
    let adjustment := skew_multiple * (5/1000)
    (-adjustment, -adjustment)

/-- Tick rounding, source method `_round_price`:
`(price * 100).quantize(Decimal("1")) / 100` under the default decimal
context, i.e. ties to even. -/
def round_price (price : ℚ) : ℚ := (roundHalfEven (price * 100) : ℚ) / 100

/-- Main quote generation, `QuoteEngine.calculate_quotes`.  The order size
defaults via Python `or`, so a zero override also falls back to
`default_size`. -/
def QuoteEngine.calculate_quotes (e : QuoteEngine) (orderbook : OrderBook)
    (inventory : ℤ) (volatility_factor : ℚ) (hours_to_expiry : Option ℚ)
    (size_override : Option ℚ) : Option QuoteSet :=
  match e.calculate_fair_value orderbook inventory with
  | none => none
  | some fair_value =>
    let spread := e.calculate_spread orderbook inventory volatility_factor hours_to_expiry
    let sk := e.calculate_inventory_skew inventory
    let size : ℚ :=
      match size_override with
      | some s => if s = 0 then e.default_size else s
      | none => e.default_size
    let half_spread := spread / 2
    let bids := (List.range e.num_levels).filterMap (fun (level : ℕ) =>
      let level_offset := (level : ℚ) * e.level_spacing
      let level_size := max 5 (size * (1 - (level : ℚ) * (2/10)))
      let bid_price := round_price (fair_value - half_spread - level_offset + sk.1)
      if e.min_price ≤ bid_price then some (Quote.mk bid_price level_size Side.buy)
      else none)
    let asks := (List.range e.num_levels).filterMap (fun (level : ℕ) =>
      let level_offset := (level : ℚ) * e.level_spacing
      let level_size := max 5 (size * (1 - (level : ℚ) * (2/10)))
      let ask_price := round_price (fair_value + half_spread + level_offset + sk.2)
      if ask_price ≤ e.max_price then some (Quote.mk ask_price level_size Side.sell)
      else none)
    some ⟨bids, asks, fair_value, spread⟩

/-- Admission probe `QuoteEngine.should_quote` (it reads no engine state).
The checks run in source order: missing book, inventory limit, expiry,
extreme mid. -/
def should_quote (orderbook : OrderBook) (inventory max_inventory : ℤ)
    (hours_to_expiry : Option ℚ) : Bool × String :=
  match orderbook.mid_price with
  | none => (false, "No orderbook data")
  | some mid =>
    if max_inventory ≤ |inventory| then
      (true, if 0 < inventory then "Inventory limit - blocking BUY"
             else "Inventory limit - blocking SELL")
    else
      let hoursBlock : Bool :=
        match hours_to_expiry with
        | some h => decide (h < 1)
        | none => false
      if hoursBlock then (false, "Too close to expiry")
      else if mid < 2/100 ∨ 98/100 < mid then (false, "Price near resolution bounds")
      else (true, "OK")

/-- Quote generation of `SmartQuoteEngine.calculate_quotes`.  The realized
volatility estimate involves a decimal square root and is therefore passed
as the parameter `realized_vol` (the source clamps it to `[0.5, 3.0]`);
`momentum` is the value of `detect_momentum()` on the engine's price
history.  Both are combined exactly as in the override: volatilities are
averaged, and the fair value is shifted by `momentum * 0.1` when
`|momentum| > 0.01`. -/
def smart_calculate_quotes (e : QuoteEngine) (orderbook : OrderBook)
    (inventory : ℤ) (volatility_factor realized_vol momentum : ℚ)
    (hours_to_expiry : Option ℚ) (size_override : Option ℚ) : Option QuoteSet :=
  let combined_vol := (volatility_factor + realized_vol) / 2
  match e.calculate_quotes orderbook inventory combined_vol hours_to_expiry size_override with
  | none => none
  | some qs =>
    if 1/100 < |momentum| then
      some ⟨qs.bids, qs.asks, qs.fair_value + momentum * (1/10), qs.spread⟩
    else some qs

end PolyMM

namespace PolyMM

/-! Tick-rounding properties used by the quote-level theorems. -/

theorem round_price_le (p : ℚ) : round_price p ≤ p + 1/200 := by
  have h := roundHalfEven_le (p * 100)
  unfold round_price
  linarith

theorem le_round_price (p : ℚ) : p - 1/200 ≤ round_price p := by
  have h := le_roundHalfEven (p * 100)
  unfold round_price
  linarith

theorem round_price_mono {p q : ℚ} (h : p ≤ q) : round_price p ≤ round_price q := by
  have h100 : p * 100 ≤ q * 100 := by linarith
  have := roundHalfEven_mono h100
  unfold round_price
  have hc : ((roundHalfEven (p * 100) : ℚ)) ≤ ((roundHalfEven (q * 100) : ℚ)) := by
    exact_mod_cast this
  linarith

end PolyMM

namespace PolyMM

/-- C3 counterexample: the price 0.485 lies exactly halfway between the
ticks 0.48 and 0.49; `_round_price` yields 0.48 (ties to even), not the
half-away-from-zero result 0.49 the claim asserts. -/
theorem c3_round_counterexample :
    round_price (485/1000) = 48/100 ∧ round_price (485/1000) ≠ 49/100 := by
  have h : round_price (485/1000) = 48/100 := by
    unfold round_price roundHalfEven
    norm_num
  exact ⟨h, by rw [h]; norm_num⟩

/-- C3 amended: `_round_price` rounds to the 0.01 tick (the result is an
integer number of ticks within half a tick of the input), and a price
exactly halfway between two ticks rounds to the tick that is an even
number of hundredths (banker's rounding), not half-away-from-zero. -/
theorem c3_round_amended (p : ℚ) :
    (∃ n : ℤ, round_price p = (n : ℚ) / 100) ∧
    |round_price p - p| ≤ 1/200 ∧
    (p * 100 - ⌊p * 100⌋ = 1/2 → ∃ k : ℤ, round_price p = (2 * k : ℚ) / 100) := by
  refine ⟨⟨roundHalfEven (p * 100), rfl⟩, ?_, ?_⟩
  · have h1 := roundHalfEven_le (p * 100)
    have h2 := le_roundHalfEven (p * 100)
    rw [abs_le]
    unfold round_price
    constructor <;> linarith
  · intro htie
    have hnot1 : ¬ (p * 100 - ⌊p * 100⌋ < 1/2) := by rw [htie]; norm_num
    have hnot2 : ¬ ((1:ℚ)/2 < p * 100 - ⌊p * 100⌋) := by rw [htie]; norm_num
    unfold round_price roundHalfEven
    rw [if_neg hnot1, if_neg hnot2]
    by_cases hpar : ⌊p * 100⌋ % 2 = 0
    · refine ⟨⌊p * 100⌋ / 2, ?_⟩
      rw [if_pos hpar]
      have h2 : (2 * (⌊p * 100⌋ / 2) : ℤ) = ⌊p * 100⌋ := by omega
      have h3 : (2 : ℚ) * ((⌊p * 100⌋ / 2 : ℤ) : ℚ) = ((⌊p * 100⌋ : ℤ) : ℚ) := by
        exact_mod_cast h2
      rw [h3]
    · refine ⟨(⌊p * 100⌋ + 1) / 2, ?_⟩
      rw [if_neg hpar]
      have h2 : (2 * ((⌊p * 100⌋ + 1) / 2) : ℤ) = ⌊p * 100⌋ + 1 := by omega
      have h3 : (2 : ℚ) * (((⌊p * 100⌋ + 1) / 2 : ℤ) : ℚ) = ((⌊p * 100⌋ + 1 : ℤ) : ℚ) := by
        exact_mod_cast h2
      rw [h3]

/-- Witness for `c3_round_amended` at the tie 0.485. -/
theorem c3_round_amended_witness :
    (485/1000 : ℚ) * 100 - ⌊(485/1000 : ℚ) * 100⌋ = 1/2 ∧
    ∃ k : ℤ, round_price (485/1000) = (2 * k : ℚ) / 100 :=
  ⟨by norm_num, (c3_round_amended (485/1000)).2.2 (by norm_num)⟩

end PolyMM

namespace PolyMM

/-- Order book used to refute C6: mid is 0.015, below the 0.02 bound. -/
def c6Book : OrderBook := ⟨[⟨1/100, 10⟩], [⟨2/100, 10⟩]⟩

/-- C6 counterexample: with mid 0.015 < 0.02 and hours_to_expiry 0.5 < 1,
`should_quote` still returns true when `|inventory| ≥ max_inventory`,
because the inventory-limit branch runs before the expiry and
extreme-price checks. -/
theorem c6_should_quote_counterexample :
    c6Book.mid_price = some (3/200) ∧ (3/200 : ℚ) < 2/100 ∧ ((1:ℚ)/2) < 1 ∧
    should_quote c6Book 100 100 (some (1/2)) =
      (true, "Inventory limit - blocking BUY") := by
  have hmid : c6Book.mid_price = some (3/200) := by
    unfold c6Book OrderBook.mid_price OrderBook.best_bid OrderBook.best_ask
    norm_num
  refine ⟨hmid, by norm_num, by norm_num, ?_⟩
  unfold should_quote
  rw [hmid]
  norm_num

/-- C6 amended: the guards run in source order, with the inventory-limit
branch taking precedence.  `should_quote` returns false when the mid is
absent; when `|inventory| < max_inventory` it returns false for
`hours_to_expiry < 1` and for a mid outside `(0.02, 0.98)`; but when
`|inventory| ≥ max_inventory` it returns true naming the blocked side even
if the mid or expiry condition would otherwise reject. -/
theorem c6_should_quote_amended (orderbook : OrderBook) (inventory max_inventory : ℤ)
    (hours : Option ℚ) :
    (orderbook.mid_price = none →
      should_quote orderbook inventory max_inventory hours = (false, "No orderbook data")) ∧
    (∀ mid : ℚ, orderbook.mid_price = some mid → max_inventory ≤ |inventory| →
      should_quote orderbook inventory max_inventory hours =
        (true, if 0 < inventory then "Inventory limit - blocking BUY"
               else "Inventory limit - blocking SELL")) ∧
    (∀ mid : ℚ, orderbook.mid_price = some mid → |inventory| < max_inventory →
      (∀ h ∈ hours, h < 1 → (should_quote orderbook inventory max_inventory hours).1 = false) ∧
      ((mid < 2/100 ∨ 98/100 < mid) →
        (should_quote orderbook inventory max_inventory hours).1 = false)) := by
  refine ⟨?_, ?_, ?_⟩
  · intro hmid
    unfold should_quote
    rw [hmid]
  · intro mid hmid hinv
    unfold should_quote
    rw [hmid]
    dsimp only
    rw [if_pos hinv]
  · intro mid hmid hinv
    have hnotinv : ¬ max_inventory ≤ |inventory| := not_le.2 hinv
    constructor
    · intro h hh hlt
      rw [Option.mem_def] at hh
      unfold should_quote
      rw [hmid, hh]
      dsimp only
      rw [if_neg hnotinv]
      simp [hlt]
    · intro hrange
      unfold should_quote
      rw [hmid]
      dsimp only
      rw [if_neg hnotinv]
      cases hours with
      | none => simp [hrange]
      | some h =>
        by_cases hlt : h < 1
        · simp [hlt]
        · simp [hlt, hrange]

end PolyMM

namespace PolyMM

/-- Witness for `c6_should_quote_amended`: with flat inventory, mid 0.015
and half an hour to expiry, quoting is refused. -/
theorem c6_should_quote_amended_witness :
    (should_quote c6Book 0 100 (some (1/2))).1 = false :=
  ((c6_should_quote_amended c6Book 0 100 (some (1/2))).2.2 (3/200)
    (by unfold c6Book OrderBook.mid_price OrderBook.best_bid OrderBook.best_ask; norm_num)
    (by norm_num)).2 (Or.inl (by norm_num))

end PolyMM

namespace PolyMM

/-- Quote levels are weakly monotone for any engine with nonnegative level
spacing: later bid levels are priced no higher, later ask levels no
lower.  Adjacent levels can collide on a tick because ties-to-even
rounding does not commute with one-tick shifts. -/
theorem calculate_quotes_levels_mono (e : QuoteEngine) (hsp : 0 ≤ e.level_spacing)
    (orderbook : OrderBook) (inventory : ℤ) (volatility_factor : ℚ)
    (hours_to_expiry : Option ℚ) (size_override : Option ℚ) (qs : QuoteSet)
    (hqs : e.calculate_quotes orderbook inventory volatility_factor hours_to_expiry
      size_override = some qs) :
    qs.bids.Pairwise (fun x y => y.price ≤ x.price) ∧
    qs.asks.Pairwise (fun x y => x.price ≤ y.price) := by
  unfold QuoteEngine.calculate_quotes at hqs
  cases hfv : e.calculate_fair_value orderbook inventory with
  | none =>
    rw [hfv] at hqs
    exact absurd hqs (by simp)
  | some fv =>
    rw [hfv] at hqs
    dsimp only at hqs
    obtain rfl := Option.some.inj hqs
    constructor
    · rw [List.pairwise_filterMap]
      refine (List.pairwise_lt_range e.num_levels).imp ?_
      intro L Lt hLL x hx y hy
      rw [Option.mem_def] at hx hy
      split_ifs at hx with hx1
      · split_ifs at hy with hy1
        · obtain rfl := Option.some.inj hx
          obtain rfl := Option.some.inj hy
          dsimp only
          apply round_price_mono
          have hc : (L : ℚ) * e.level_spacing ≤ (Lt : ℚ) * e.level_spacing :=
            mul_le_mul_of_nonneg_right (by exact_mod_cast hLL.le) hsp
          linarith
    · rw [List.pairwise_filterMap]
      refine (List.pairwise_lt_range e.num_levels).imp ?_
      intro L Lt hLL x hx y hy
      rw [Option.mem_def] at hx hy
      split_ifs at hx with hx1
      · split_ifs at hy with hy1
        · obtain rfl := Option.some.inj hx
          obtain rfl := Option.some.inj hy
          dsimp only
          apply round_price_mono
          have hc : (L : ℚ) * e.level_spacing ≤ (Lt : ℚ) * e.level_spacing :=
            mul_le_mul_of_nonneg_right (by exact_mod_cast hLL.le) hsp
          linarith

end PolyMM

namespace PolyMM

theorem clamp_spread_bounds {x : ℚ} (hx : 2/100 ≤ x) :
    2/100 ≤ max (1/100) (min (10/100) x) ∧ max (1/100) (min (10/100) x) ≤ 10/100 :=
  ⟨le_max_of_le_right (le_min (by norm_num) hx), max_le (by norm_num) (min_le_left _ _)⟩

/-- With the default configuration, an adverse factor of at least 1 and a
volatility factor of at least 1, the shaped spread lies in [0.02, 0.10]:
every multiplicative factor is at least 1 and the clamp keeps the result
below the maximum. -/
theorem calculate_spread_bounds (a volatility_factor : ℚ) (ha : 1 ≤ a)
    (hv : 1 ≤ volatility_factor) (orderbook : OrderBook) (inventory : ℤ)
    (hours_to_expiry : Option ℚ) :
    2/100 ≤ (engineWithAdverse a).calculate_spread orderbook inventory volatility_factor
      hours_to_expiry ∧
    (engineWithAdverse a).calculate_spread orderbook inventory volatility_factor
      hours_to_expiry ≤ 10/100 := by
  have hbase : (2:ℚ)/100 ≤ 2/100 * volatility_factor :=
    le_mul_of_one_le_right (by norm_num) hv
  have hstep : ∀ x y : ℚ, 2/100 ≤ x → 1 ≤ y → 2/100 ≤ x * y := by
    intro x y hx hy
    calc (2:ℚ)/100 ≤ x := hx
      _ ≤ x * y := le_mul_of_one_le_right (le_trans (by norm_num) hx) hy
  have hf1 : (1:ℚ) ≤ 1 + |(inventory : ℚ)| / (((100 : ℤ) : ℚ) * 4) := by
    have h0 : (0:ℚ) ≤ |(inventory : ℚ)| / (((100 : ℤ) : ℚ) * 4) := by positivity
    linarith
  have hth : (1:ℚ) ≤ 3/2 := by norm_num
  unfold QuoteEngine.calculate_spread engineWithAdverse
  dsimp only
  cases hours_to_expiry with
  | none =>
    dsimp only
    have b00 := hstep _ _ hbase ha
    have b10 := hstep _ _ (hstep _ _ hbase hf1) ha
    have b01 := hstep _ _ (hstep _ _ hbase hth) ha
    have b11 := hstep _ _ (hstep _ _ (hstep _ _ hbase hf1) hth) ha
    split_ifs <;>
      first
        | exact clamp_spread_bounds b11
        | exact clamp_spread_bounds b10
        | exact clamp_spread_bounds b01
        | exact clamp_spread_bounds b00
  | some h =>
    dsimp only
    have hmax1 : (1:ℚ) ≤ max 1 (h / 12) := le_max_left _ _
    have hf2 : (1:ℚ) ≤ 1 + 1 / max 1 (h / 12) := by
      have hpos : (0:ℚ) < max 1 (h / 12) := lt_of_lt_of_le one_pos hmax1
      have h0 : (0:ℚ) ≤ 1 / max 1 (h / 12) := by positivity
      linarith
    have b000 := hstep _ _ hbase ha
    have b100 := hstep _ _ (hstep _ _ hbase hf1) ha
    have b010 := hstep _ _ (hstep _ _ hbase hf2) ha
    have b001 := hstep _ _ (hstep _ _ hbase hth) ha
    have b110 := hstep _ _ (hstep _ _ (hstep _ _ hbase hf1) hf2) ha
    have b101 := hstep _ _ (hstep _ _ (hstep _ _ hbase hf1) hth) ha
    have b011 := hstep _ _ (hstep _ _ (hstep _ _ hbase hf2) hth) ha
    have b111 := hstep _ _ (hstep _ _ (hstep _ _ (hstep _ _ hbase hf1) hf2) hth) ha
    split_ifs <;>
      first
        | exact clamp_spread_bounds b111
        | exact clamp_spread_bounds b110
        | exact clamp_spread_bounds b101
        | exact clamp_spread_bounds b011
        | exact clamp_spread_bounds b100
        | exact clamp_spread_bounds b010
        | exact clamp_spread_bounds b001
        | exact clamp_spread_bounds b000

end PolyMM

namespace PolyMM

/-- With the default configuration, volatility and adverse factors at
least 1, and `|inventory|` within the skew threshold, every emitted bid is
strictly below the fair value and every emitted ask strictly above it:
the half-spread of at least 0.01 dominates the half-tick rounding error. -/
theorem calculate_quotes_bracket (a volatility_factor : ℚ) (ha : 1 ≤ a)
    (hv : 1 ≤ volatility_factor) (orderbook : OrderBook) (inventory : ℤ)
    (hours_to_expiry : Option ℚ) (size_override : Option ℚ) (qs : QuoteSet)
    (hinv : |inventory| ≤ 100)
    (hqs : (engineWithAdverse a).calculate_quotes orderbook inventory volatility_factor
      hours_to_expiry size_override = some qs) :
    (∀ q ∈ qs.bids, q.price < qs.fair_value) ∧
    (∀ q ∈ qs.asks, qs.fair_value < q.price) := by
  have hsp := calculate_spread_bounds a volatility_factor ha hv orderbook inventory
    hours_to_expiry
  have hskew : (engineWithAdverse a).calculate_inventory_skew inventory = (0, 0) := by
    unfold QuoteEngine.calculate_inventory_skew engineWithAdverse
    dsimp only
    exact if_pos hinv
  unfold QuoteEngine.calculate_quotes at hqs
  cases hfv : (engineWithAdverse a).calculate_fair_value orderbook inventory with
  | none =>
    rw [hfv] at hqs
    exact absurd hqs (by simp)
  | some fv =>
    rw [hfv] at hqs
    dsimp only at hqs
    rw [hskew] at hqs
    dsimp only at hqs
    obtain rfl := Option.some.inj hqs
    constructor
    · intro q hq
      dsimp only at hq ⊢
      rw [List.mem_filterMap] at hq
      obtain ⟨L, hL, hfL⟩ := hq
      split_ifs at hfL with hcond
      obtain rfl := Option.some.inj hfL
      dsimp only
      have hr := round_price_le (fv -
        (engineWithAdverse a).calculate_spread orderbook inventory volatility_factor
          hours_to_expiry / 2 - (L : ℚ) * (engineWithAdverse a).level_spacing + 0)
      have hL0 : (0:ℚ) ≤ (L : ℚ) := Nat.cast_nonneg L
      have hoff : (0:ℚ) ≤ (L : ℚ) * (engineWithAdverse a).level_spacing :=
        mul_nonneg hL0 (by norm_num [engineWithAdverse])
      have h1 := hsp.1
      linarith
    · intro q hq
      dsimp only at hq ⊢
      rw [List.mem_filterMap] at hq
      obtain ⟨L, hL, hfL⟩ := hq
      split_ifs at hfL with hcond
      obtain rfl := Option.some.inj hfL
      dsimp only
      have hr := le_round_price (fv +
        (engineWithAdverse a).calculate_spread orderbook inventory volatility_factor
          hours_to_expiry / 2 + (L : ℚ) * (engineWithAdverse a).level_spacing + 0)
      have hL0 : (0:ℚ) ≤ (L : ℚ) := Nat.cast_nonneg L
      have hoff : (0:ℚ) ≤ (L : ℚ) * (engineWithAdverse a).level_spacing :=
        mul_nonneg hL0 (by norm_num [engineWithAdverse])
      have h1 := hsp.1
      linarith

end PolyMM

namespace PolyMM

/-- Order book with 200-deep best levels at 0.49 / 0.51 (mid 0.50). -/
def c2Book : OrderBook := ⟨[⟨49/100, 200⟩], [⟨51/100, 200⟩]⟩

/-- C2 amended: every emitted QuoteSet (base engine and the
SmartQuoteEngine override) has weakly monotone levels — bid prices
non-increasing and ask prices non-decreasing, adjacent levels may collide
on a tick after ties-to-even rounding — and, for the base engine, when
`volatility_factor ≥ 1` and `|inventory|` is within the skew threshold,
every bid price is strictly below `fair_value` and every ask strictly
above it. -/
theorem c2_quoteset_amended (a volatility_factor : ℚ) (ha : 1 ≤ a)
    (orderbook : OrderBook) (inventory : ℤ) (hours_to_expiry : Option ℚ)
    (size_override : Option ℚ) :
    (∀ qs : QuoteSet,
      (engineWithAdverse a).calculate_quotes orderbook inventory volatility_factor
        hours_to_expiry size_override = some qs →
      (qs.bids.Pairwise (fun x y => y.price ≤ x.price) ∧
       qs.asks.Pairwise (fun x y => x.price ≤ y.price)) ∧
      (1 ≤ volatility_factor → |inventory| ≤ 100 →
        (∀ q ∈ qs.bids, q.price < qs.fair_value) ∧
        (∀ q ∈ qs.asks, qs.fair_value < q.price))) ∧
    (∀ realized_vol momentum : ℚ, ∀ qs : QuoteSet,
      smart_calculate_quotes (engineWithAdverse a) orderbook inventory
        volatility_factor realized_vol momentum hours_to_expiry size_override = some qs →
      qs.bids.Pairwise (fun x y => y.price ≤ x.price) ∧
      qs.asks.Pairwise (fun x y => x.price ≤ y.price)) := by
  constructor
  · intro qs hqs
    refine ⟨calculate_quotes_levels_mono _ (by norm_num [engineWithAdverse])
      _ _ _ _ _ _ hqs, ?_⟩
    intro hv hinv
    exact calculate_quotes_bracket a volatility_factor ha hv orderbook inventory
      hours_to_expiry size_override qs hinv hqs
  · intro rv mom qs hqs
    unfold smart_calculate_quotes at hqs
    dsimp only at hqs
    cases hb : (engineWithAdverse a).calculate_quotes orderbook inventory
        ((volatility_factor + rv) / 2) hours_to_expiry size_override with
    | none =>
      rw [hb] at hqs
      exact absurd hqs (by simp)
    | some qs0 =>
      rw [hb] at hqs
      dsimp only at hqs
      have hm := calculate_quotes_levels_mono _ (by norm_num [engineWithAdverse])
        _ _ _ _ _ _ hb
      split_ifs at hqs with hmom
      · obtain rfl := Option.some.inj hqs
        exact ⟨hm.1, hm.2⟩
      · obtain rfl := Option.some.inj hqs
        exact hm

/-- QuoteSet produced by the default engine on `c2Book` with flat
inventory. -/
def c2WitnessQS : QuoteSet :=
  ⟨[⟨49/100, 20, Side.buy⟩, ⟨48/100, 16, Side.buy⟩, ⟨47/100, 12, Side.buy⟩],
   [⟨51/100, 20, Side.sell⟩, ⟨52/100, 16, Side.sell⟩, ⟨53/100, 12, Side.sell⟩],
   1/2, 2/100⟩

/-- Witness for `c2_quoteset_amended` on a concrete flat-inventory book. -/
theorem c2_quoteset_amended_witness :
    (c2WitnessQS.bids.Pairwise (fun x y => y.price ≤ x.price) ∧
     c2WitnessQS.asks.Pairwise (fun x y => x.price ≤ y.price)) ∧
    ((1:ℚ) ≤ 1 → |(0:ℤ)| ≤ 100 →
      (∀ q ∈ c2WitnessQS.bids, q.price < c2WitnessQS.fair_value) ∧
      (∀ q ∈ c2WitnessQS.asks, c2WitnessQS.fair_value < q.price)) :=
  (c2_quoteset_amended 1 1 (by norm_num) c2Book 0 none none).1 c2WitnessQS (by
    have r1 : round_price (49/100) = 49/100 := by unfold round_price roundHalfEven; norm_num
    have r2 : round_price (12/25) = 48/100 := by unfold round_price roundHalfEven; norm_num
    have r3 : round_price (47/100) = 47/100 := by unfold round_price roundHalfEven; norm_num
    have r4 : round_price (51/100) = 51/100 := by unfold round_price roundHalfEven; norm_num
    have r5 : round_price (13/25) = 52/100 := by unfold round_price roundHalfEven; norm_num
    have r6 : round_price (53/100) = 53/100 := by unfold round_price roundHalfEven; norm_num
    unfold engineWithAdverse c2Book c2WitnessQS QuoteEngine.calculate_quotes
      QuoteEngine.calculate_fair_value QuoteEngine.calculate_spread
      QuoteEngine.calculate_inventory_skew OrderBook.mid_price OrderBook.best_bid
      OrderBook.best_ask OrderBook.weighted_mid
    norm_num [List.range_succ, List.filterMap_cons, Quote.mk.injEq, r1, r2, r3, r4, r5, r6])

/-- C2 counterexample: with inventory −1000 on `c2Book`, the default
engine emits bids [0.62, 0.60, 0.60] around fair value 0.60 — the first
bid is not below the fair value, and bid prices are not strictly
decreasing. -/
theorem c2_quoteset_counterexample :
    ∃ qs : QuoteSet,
      defaultEngine.calculate_quotes c2Book (-1000) 1 none none = some qs ∧
      (∃ q ∈ qs.bids, qs.fair_value ≤ q.price) ∧
      ¬ qs.bids.Pairwise (fun x y => y.price < x.price) := by
  have hEval : defaultEngine.calculate_quotes c2Book (-1000) 1 none none =
      some ⟨[⟨62/100, 20, Side.buy⟩, ⟨60/100, 16, Side.buy⟩, ⟨60/100, 12, Side.buy⟩],
            [⟨68/100, 20, Side.sell⟩, ⟨70/100, 16, Side.sell⟩, ⟨70/100, 12, Side.sell⟩],
            60/100, 7/100⟩ := by
    have r1 : round_price (123/200) = 62/100 := by unfold round_price roundHalfEven; norm_num
    have r2 : round_price (121/200) = 60/100 := by unfold round_price roundHalfEven; norm_num
    have r3 : round_price (119/200) = 60/100 := by unfold round_price roundHalfEven; norm_num
    have r4 : round_price (137/200) = 68/100 := by unfold round_price roundHalfEven; norm_num
    have r5 : round_price (139/200) = 70/100 := by unfold round_price roundHalfEven; norm_num
    have r6 : round_price (141/200) = 70/100 := by unfold round_price roundHalfEven; norm_num
    unfold defaultEngine engineWithAdverse c2Book QuoteEngine.calculate_quotes
      QuoteEngine.calculate_fair_value QuoteEngine.calculate_spread
      QuoteEngine.calculate_inventory_skew OrderBook.mid_price OrderBook.best_bid
      OrderBook.best_ask OrderBook.weighted_mid
    norm_num [List.range_succ, List.filterMap_cons, Quote.mk.injEq, r1, r2, r3, r4, r5, r6]
  refine ⟨_, hEval, ?_, ?_⟩
  · exact ⟨⟨62/100, 20, Side.buy⟩, List.mem_cons_self _ _, by norm_num⟩
  · intro hp
    norm_num [List.pairwise_cons] at hp

end PolyMM

namespace PolyMM

/-! Inventory ledger and risk gate from `src/risk_manager.py`.  The
`token_id` and `last_updated` fields of `Position`, and the trade-history
log, carry no claim-relevant semantics and are omitted; the risk manager's
`_daily_pnl` bookkeeping (reset at UTC midnight) never feeds the halt
decision and is likewise omitted. -/

/-- Position in a single token. -/
structure Position where
  quantity : ℤ
  avg_entry_price : ℚ
  realized_pnl : ℚ
  unrealized_pnl : ℚ
deriving DecidableEq, Repr

def zeroPosition : Position := ⟨0, 0, 0, 0⟩

/-- Trade fields read by `InventoryManager.update_position` (ids, fee and
timestamp are not read). -/
structure Trade where
  side : Side
  price : ℚ
  size : ℚ
deriving DecidableEq, Repr

/-- Position update on a fill, `InventoryManager.update_position`.  The
source truncates `trade.size` to an integer share count via `int(...)` for
quantity arithmetic but uses the full decimal size for cost; both are kept
here.  Note the whole averaging / realized-P&L block is guarded by
`if new_quantity != 0`, so a fill that closes the position exactly to zero
books nothing. -/
def update_position (p : Position) (t : Trade) : Position :=
  match t.side with
  | Side.buy =>
    let new_quantity := p.quantity + truncQ t.size
    if new_quantity ≠ 0 then
      if 0 ≤ p.quantity then
        let old_cost := p.avg_entry_price * ((max 0 p.quantity : ℤ) : ℚ)
        let new_cost := t.price * t.size
        ⟨new_quantity, (old_cost + new_cost) / (new_quantity : ℚ),
         p.realized_pnl, p.unrealized_pnl⟩
      else
        let closed_qty := min (truncQ t.size) |p.quantity|
        let pnl := (p.avg_entry_price - t.price) * (closed_qty : ℚ)
        let new_avg := if 0 < new_quantity then t.price else p.avg_entry_price
        ⟨new_quantity, new_avg, p.realized_pnl + pnl, p.unrealized_pnl⟩
    else
      ⟨new_quantity, p.avg_entry_price, p.realized_pnl, p.unrealized_pnl⟩
  | Side.sell =>
    let new_quantity := p.quantity - truncQ t.size
    if new_quantity ≠ 0 then
      if p.quantity ≤ 0 then
        let old_cost := p.avg_entry_price * ((|min 0 p.quantity| : ℤ) : ℚ)
        let new_cost := t.price * t.size
        ⟨new_quantity, (old_cost + new_cost) / ((|new_quantity| : ℤ) : ℚ),
         p.realized_pnl, p.unrealized_pnl⟩
      else
        let closed_qty := min (truncQ t.size) p.quantity
        let pnl := (t.price - p.avg_entry_price) * (closed_qty : ℚ)
        let new_avg := if new_quantity < 0 then t.price else p.avg_entry_price
        ⟨new_quantity, new_avg, p.realized_pnl + pnl, p.unrealized_pnl⟩
    else
      ⟨new_quantity, p.avg_entry_price, p.realized_pnl, p.unrealized_pnl⟩

/-- The `InventoryManager._positions` dict, as an insertion-ordered
association list with unique keys. -/
abbrev InvState := List (String × Position)

def lookupPos (inv : InvState) (token_id : String) : Option Position :=
  match inv with
  | [] => none
  | (k, p) :: rest => if k = token_id then some p else lookupPos rest token_id

/-- `InventoryManager.get_position`: returns the position and the possibly
extended ledger (a missing token is inserted with quantity 0 and entry
price 0). -/
def get_position (inv : InvState) (token_id : String) : Position × InvState :=
  match lookupPos inv token_id with
  | some p => (p, inv)
  | none => (zeroPosition, inv ++ [(token_id, zeroPosition)])

def get_total_long_exposure (inv : InvState) : ℚ :=
  (inv.map (fun kv =>
    if 0 < kv.2.quantity then kv.2.avg_entry_price * (kv.2.quantity : ℚ) else 0)).sum

def get_total_short_exposure (inv : InvState) : ℚ :=
  (inv.map (fun kv =>
    if kv.2.quantity < 0 then kv.2.avg_entry_price * ((|kv.2.quantity| : ℤ) : ℚ) else 0)).sum

def get_net_exposure (inv : InvState) : ℚ :=
  get_total_long_exposure inv - get_total_short_exposure inv

def get_gross_exposure (inv : InvState) : ℚ :=
  get_total_long_exposure inv + get_total_short_exposure inv

def get_total_realized_pnl (inv : InvState) : ℚ :=
  (inv.map (fun kv => kv.2.realized_pnl)).sum

def get_total_unrealized_pnl (inv : InvState) : ℚ :=
  (inv.map (fun kv => kv.2.unrealized_pnl)).sum

/-- Risk gate configuration and state (`RiskManager.__init__`). -/
structure RiskManager where
  max_position_per_market : ℤ
  max_total_exposure : ℚ
  max_inventory_imbalance : ℚ
  daily_loss_limit : ℚ
  halted : Bool
  halt_reason : String
deriving DecidableEq, Repr

/-- Constructor defaults of `RiskManager`. -/
def defaultRiskManager : RiskManager := ⟨500, 1000, 400, 100, false, ""⟩

/-- Pre-trade admission, `RiskManager.check_order_allowed`.  Returns the
(possibly extended) ledger together with the decision and reason.  The
interpolated numbers of the source's reason strings are elided; the halt
reason keeps its exact shape. -/
def check_order_allowed (rm : RiskManager) (inv : InvState) (token_id : String)
    (side : Side) (size : ℚ) (price : ℚ) : InvState × Bool × String :=
  if rm.halted then (inv, false, "Trading halted: " ++ rm.halt_reason)
  else
    let pi := get_position inv token_id
    let current_qty := pi.1.quantity
    let new_qty := if side = Side.buy then current_qty + truncQ size
                   else current_qty - truncQ size
    if rm.max_position_per_market < |new_qty| then
      (pi.2, false, "Would exceed position limit")
    else
      let current_exposure := get_gross_exposure pi.2
      let additional_exposure := price * size
      if rm.max_total_exposure < current_exposure + additional_exposure then
        (pi.2, false, "Would exceed total exposure")
      else
        let net_exposure := get_net_exposure pi.2
        let new_net := if side = Side.buy then net_exposure + price * size
                       else net_exposure - price * size
        if rm.max_inventory_imbalance < |new_net| then
          (pi.2, false, "Would exceed inventory imbalance")
        else
          (pi.2, true, "OK")

/-- Daily-loss circuit breaker, `RiskManager.check_daily_loss`: halts when
total P&L (realized + unrealized) falls strictly below the negated daily
loss limit. -/
def check_daily_loss (rm : RiskManager) (inv : InvState) : Bool × RiskManager :=
  let total_pnl := get_total_realized_pnl inv + get_total_unrealized_pnl inv
  if total_pnl < -rm.daily_loss_limit then
    (true, ⟨rm.max_position_per_market, rm.max_total_exposure,
      rm.max_inventory_imbalance, rm.daily_loss_limit, true, "Daily loss limit hit"⟩)
  else
    (false, rm)

def halt_trading (rm : RiskManager) (reason : String) : RiskManager :=
  ⟨rm.max_position_per_market, rm.max_total_exposure, rm.max_inventory_imbalance,
   rm.daily_loss_limit, true, reason⟩

def resume_trading (rm : RiskManager) : RiskManager :=
  ⟨rm.max_position_per_market, rm.max_total_exposure, rm.max_inventory_imbalance,
   rm.daily_loss_limit, false, ""⟩

/-- The risk-manager operations other than `resume_trading` (reads such as
`get_risk_metrics` and `calculate_size_adjustment` never write `self` and
are represented by `checkOrderAllowed`, which also writes nothing to the
risk manager). -/
inductive RMOp where
  | checkDailyLoss (inv : InvState)
  | checkOrderAllowed (inv : InvState) (token_id : String) (side : Side) (size price : ℚ)
  | haltTrading (reason : String)

def applyRMOp (rm : RiskManager) (op : RMOp) : RiskManager :=
  match op with
  | RMOp.checkDailyLoss inv => (check_daily_loss rm inv).2
  | RMOp.checkOrderAllowed _ _ _ _ _ => rm
  | RMOp.haltTrading reason => halt_trading rm reason

def applyRMOps (rm : RiskManager) (ops : List RMOp) : RiskManager :=
  ops.foldl applyRMOp rm

theorem applyRMOp_halted (rm : RiskManager) (op : RMOp) (h : rm.halted = true) :
    (applyRMOp rm op).halted = true := by
  cases op with
  | checkDailyLoss inv =>
    unfold applyRMOp check_daily_loss
    dsimp only
    split_ifs <;> simp [h]
  | checkOrderAllowed inv tok side size price => exact h
  | haltTrading reason => rfl

theorem applyRMOps_halted (rm : RiskManager) (ops : List RMOp) (h : rm.halted = true) :
    (applyRMOps rm ops).halted = true := by
  induction ops generalizing rm with
  | nil => exact h
  | cons op rest ih => exact ih _ (applyRMOp_halted rm op h)

theorem check_order_allowed_halted (rm : RiskManager) (inv : InvState)
    (token_id : String) (side : Side) (size price : ℚ) (h : rm.halted = true) :
    check_order_allowed rm inv token_id side size price =
      (inv, false, "Trading halted: " ++ rm.halt_reason) := by
  unfold check_order_allowed
  rw [if_pos h]

end PolyMM

namespace PolyMM

/-- C4: once total P&L (realized + unrealized) is strictly below
`-daily_loss_limit`, `check_daily_loss` returns true and sets the halted
flag, and the halt is sticky: after any further sequence of risk-manager
operations not including `resume_trading`, the gate stays halted and every
`check_order_allowed` call is rejected with a reason naming the halt. -/
theorem c4_daily_loss_halts_sticky (rm : RiskManager) (inv : InvState)
    (hloss : get_total_realized_pnl inv + get_total_unrealized_pnl inv <
      -rm.daily_loss_limit) :
    (check_daily_loss rm inv).1 = true ∧
    (check_daily_loss rm inv).2.halted = true ∧
    ∀ ops : List RMOp,
      (applyRMOps (check_daily_loss rm inv).2 ops).halted = true ∧
      ∀ (inv2 : InvState) (token_id : String) (side : Side) (size price : ℚ),
        check_order_allowed (applyRMOps (check_daily_loss rm inv).2 ops)
            inv2 token_id side size price =
          (inv2, false, "Trading halted: " ++
            (applyRMOps (check_daily_loss rm inv).2 ops).halt_reason) := by
  have h1 : (check_daily_loss rm inv).1 = true := by
    unfold check_daily_loss
    dsimp only
    rw [if_pos hloss]
  have h2 : (check_daily_loss rm inv).2.halted = true := by
    unfold check_daily_loss
    dsimp only
    rw [if_pos hloss]
  refine ⟨h1, h2, ?_⟩
  intro ops
  have hsticky := applyRMOps_halted _ ops h2
  exact ⟨hsticky, fun inv2 tok side size price =>
    check_order_allowed_halted _ inv2 tok side size price hsticky⟩

/-- Concrete loss-making ledger: one position with realized −30 and
unrealized −25. -/
def c4Inv : InvState := [("A", ⟨10, 1/2, -30, -25⟩)]

/-- Witness for `c4_daily_loss_halts_sticky`: with daily loss limit 50 and
total P&L −55, a later order is rejected with a halt reason. -/
theorem c4_daily_loss_halts_sticky_witness :
    (check_daily_loss (⟨500, 1000, 400, 50, false, ""⟩ : RiskManager) c4Inv).1 = true ∧
    check_order_allowed
        (applyRMOps (check_daily_loss (⟨500, 1000, 400, 50, false, ""⟩ : RiskManager)
          c4Inv).2 []) c4Inv "A" Side.buy 10 (1/2) =
      (c4Inv, false, "Trading halted: " ++
        (applyRMOps (check_daily_loss (⟨500, 1000, 400, 50, false, ""⟩ : RiskManager)
          c4Inv).2 []).halt_reason) := by
  have hloss : get_total_realized_pnl c4Inv + get_total_unrealized_pnl c4Inv <
      -(⟨500, 1000, 400, 50, false, ""⟩ : RiskManager).daily_loss_limit := by
    unfold c4Inv get_total_realized_pnl get_total_unrealized_pnl
    norm_num
  have h := c4_daily_loss_halts_sticky _ c4Inv hloss
  exact ⟨h.1, (h.2.2 []).2 c4Inv "A" Side.buy 10 (1/2)⟩

end PolyMM

namespace PolyMM

theorem lookupPos_append_ne (inv : InvState) (token_id t : String) (p : Position)
    (h : t ≠ token_id) :
    lookupPos (inv ++ [(token_id, p)]) t = lookupPos inv t := by
  induction inv with
  | nil =>
    simp only [List.nil_append]
    unfold lookupPos
    exact if_neg (Ne.symm h)
  | cons kv rest ih =>
    obtain ⟨k, q⟩ := kv
    simp only [List.cons_append]
    unfold lookupPos
    split_ifs with hk
    · rfl
    · exact ih

/-- C9: `check_order_allowed` never modifies any existing ledger entry,
whether it accepts or rejects; its only possible effect on the ledger is
that querying a token never seen before appends a fresh position with
quantity 0 and average entry price 0 (via `get_position`; when the gate is
halted it returns before the query, so nothing at all changes). -/
theorem c9_check_order_allowed_frame (rm : RiskManager) (inv : InvState)
    (token_id : String) (side : Side) (size price : ℚ) :
    (∀ t, t ≠ token_id →
      lookupPos (check_order_allowed rm inv token_id side size price).1 t =
        lookupPos inv t) ∧
    (∀ p, lookupPos inv token_id = some p →
      (check_order_allowed rm inv token_id side size price).1 = inv) ∧
    (lookupPos inv token_id = none →
      (check_order_allowed rm inv token_id side size price).1 = inv ∨
      (check_order_allowed rm inv token_id side size price).1 =
        inv ++ [(token_id, zeroPosition)]) := by
  unfold check_order_allowed get_position
  by_cases hhalt : rm.halted = true
  · rw [if_pos hhalt]
    exact ⟨fun t _ => rfl, fun p _ => rfl, fun _ => Or.inl rfl⟩
  · rw [if_neg hhalt]
    rcases hlk : lookupPos inv token_id with _ | p
    · dsimp only
      refine ⟨?_, ?_, ?_⟩
      · intro t ht
        split_ifs <;> exact lookupPos_append_ne inv token_id t zeroPosition ht
      · intro q hq
        exact Option.noConfusion hq
      · intro _
        split_ifs <;> exact Or.inr rfl
    · dsimp only
      refine ⟨?_, ?_, ?_⟩
      · intro t ht
        split_ifs <;> rfl
      · intro q hq
        split_ifs <;> rfl
      · intro hnone
        exact Option.noConfusion hnone


/-- Witness for `c9_check_order_allowed_frame` on an unseen token over a
one-entry ledger. -/
theorem c9_check_order_allowed_frame_witness :
    lookupPos c4Inv "B" = none ∧
    ((check_order_allowed defaultRiskManager c4Inv "B" Side.buy 10 (1/2)).1 = c4Inv ∨
     (check_order_allowed defaultRiskManager c4Inv "B" Side.buy 10 (1/2)).1 =
       c4Inv ++ [("B", zeroPosition)]) := by
  have hnone : lookupPos c4Inv "B" = none := by
    unfold c4Inv
    simp [lookupPos]
  exact ⟨hnone,
    (c9_check_order_allowed_frame defaultRiskManager c4Inv "B" Side.buy 10 (1/2)).2.2 hnone⟩

/-- C1 (code slip): buying 10 at 0.49 then selling all 10 at 0.51 closes
the position exactly to zero, but because the realized-P&L booking is
guarded by `if new_quantity != 0`, the ledger books 0 realized P&L where
the specified weighted-average-cost accounting books
`(exit − entry) · closed_qty = (0.51 − 0.49) · 10 = 0.20`. -/
theorem c1_exact_close_books_no_pnl :
    (update_position zeroPosition ⟨Side.buy, 49/100, 10⟩).quantity = 10 ∧
    (update_position zeroPosition ⟨Side.buy, 49/100, 10⟩).avg_entry_price = 49/100 ∧
    (update_position (update_position zeroPosition ⟨Side.buy, 49/100, 10⟩)
      ⟨Side.sell, 51/100, 10⟩).quantity = 0 ∧
    (update_position (update_position zeroPosition ⟨Side.buy, 49/100, 10⟩)
      ⟨Side.sell, 51/100, 10⟩).realized_pnl = 0 ∧
    ((51:ℚ)/100 - 49/100) * 10 = 1/5 := by
  have h1 : update_position zeroPosition ⟨Side.buy, 49/100, 10⟩ =
      ⟨10, 49/100, 0, 0⟩ := by
    unfold update_position zeroPosition truncQ
    norm_num
  have h2 : update_position (⟨10, 49/100, 0, 0⟩ : Position) ⟨Side.sell, 51/100, 10⟩ =
      ⟨0, 49/100, 0, 0⟩ := by
    unfold update_position truncQ
    norm_num
  rw [h1, h2]
  norm_num

end PolyMM

namespace PolyMM

/-! Order manager from `src/order_manager.py`.  `OrderManager._update_side`
is modelled under the claim's assumption that every cancellation and
placement succeeds, as a pure function from the desired `(price, size)`
pairs and the currently tracked orders for one side to the new tracked
list, the cancelled orders, the placed orders and the issued event trace.
Async interleaving and the venue client are outside this function. -/

/-- Order status (the source uses strings; a closed sum here). -/
inductive OStatus where
  | LIVE
  | PARTIAL
  | MATCHED
  | CANCELLED
  | UNKNOWN
deriving DecidableEq, Repr

/-- The fields of a tracked `ManagedOrder` that `_update_side` reads:
`order.order_id`, `order.price`, `order.size`, `order.status`. -/
structure MOrder where
  order_id : ℕ
  price : ℚ
  size : ℚ
  status : OStatus
deriving DecidableEq, Repr

def pairOf (m : MOrder) : ℚ × ℚ := (m.price, m.size)

/-- The keep/cancel loop of `_update_side`: walk the tracked orders,
skipping non-LIVE ones, keeping a LIVE order whose `(price, size)` is
still desired (and consuming that pair), cancelling the rest.  Returns
(keeps, cancels, remaining desired pairs). -/
def classify : List MOrder → List (ℚ × ℚ) → List MOrder × List MOrder × List (ℚ × ℚ)
  | [], desired => ([], [], desired)
  | m :: rest, desired =>
    if m.status ≠ OStatus.LIVE then classify rest desired
    else if pairOf m ∈ desired then
      let r := classify rest (desired.erase (pairOf m))
      (m :: r.1, r.2.1, r.2.2)
    else
      let r := classify rest desired
      (r.1, m :: r.2.1, r.2.2)

/-- The placement loop of `_update_side`: walk `new_quotes` in order and
place an order for every quote whose pair is in the remaining desired set.
Faithful to the source, a placed pair is NOT removed from the set, so
duplicate pairs in `new_quotes` are placed once each. -/
def placeLoop : List (ℚ × ℚ) → List (ℚ × ℚ) → ℕ → List MOrder
  | [], _, _ => []
  | q :: rest, desired, next_id =>
    if q ∈ desired then
      MOrder.mk next_id q.1 q.2 OStatus.LIVE :: placeLoop rest desired (next_id + 1)
    else placeLoop rest desired next_id

inductive SideEvent where
  | cancelEv (order_id : ℕ)
  | placeEv (price size : ℚ)
deriving DecidableEq, Repr

def SideEvent.isPlace : SideEvent → Bool
  | placeEv _ _ => true
  | _ => false

structure SideResult where
  tracked : List MOrder
  cancelled : List MOrder
  placed : List MOrder
  events : List SideEvent

/-- One reconciliation of one side, `OrderManager._update_side`, assuming
every cancel and placement succeeds.  The desired set is a Python set of
`(price, size)` tuples, modelled by `dedup`; cancellations are issued in
the keep/cancel loop, placements afterwards. -/
def update_side (new_quotes : List (ℚ × ℚ)) (current_orders : List MOrder)
    (next_id : ℕ) : SideResult :=
  let desired0 := new_quotes.dedup
  let c := classify current_orders desired0
  let placed := placeLoop new_quotes c.2.2 next_id
  ⟨c.1 ++ placed,
   c.2.1.map (fun m => MOrder.mk m.order_id m.price m.size OStatus.CANCELLED),
   placed,
   c.2.1.map (fun m => SideEvent.cancelEv m.order_id) ++
     placed.map (fun m => SideEvent.placeEv m.price m.size)⟩

theorem classify_keeps (current : List MOrder) (desired : List (ℚ × ℚ)) :
    ∀ m ∈ (classify current desired).1,
      m.status = OStatus.LIVE ∧ pairOf m ∈ desired := by
  induction current generalizing desired with
  | nil => intro m hm; exact absurd hm (by simp [classify])
  | cons m0 rest ih =>
    intro m hm
    unfold classify at hm
    split_ifs at hm with h1 h2
    · exact ih desired m hm
    · dsimp only at hm
      rcases List.mem_cons.1 hm with rfl | hm2
      · exact ⟨not_not.1 (by simpa using h1), h2⟩
      · obtain ⟨hs, hp⟩ := ih _ m hm2
        exact ⟨hs, List.erase_subset _ _ hp⟩
    · dsimp only at hm
      exact ih desired m hm

theorem classify_cancels (current : List MOrder) (desired : List (ℚ × ℚ)) :
    ∀ m ∈ (classify current desired).2.1, m.status = OStatus.LIVE := by
  induction current generalizing desired with
  | nil => intro m hm; exact absurd hm (by simp [classify])
  | cons m0 rest ih =>
    intro m hm
    unfold classify at hm
    split_ifs at hm with h1 h2
    · exact ih desired m hm
    · dsimp only at hm
      exact ih _ m hm
    · dsimp only at hm
      rcases List.mem_cons.1 hm with rfl | hm2
      · exact not_not.1 (by simpa using h1)
      · exact ih desired m hm2

theorem classify_partition (current : List MOrder) (desired : List (ℚ × ℚ)) :
    ∀ m ∈ current, m.status = OStatus.LIVE →
      m ∈ (classify current desired).1 ∨ m ∈ (classify current desired).2.1 := by
  induction current generalizing desired with
  | nil => intro m hm; exact absurd hm (by simp)
  | cons m0 rest ih =>
    intro m hm hlive
    unfold classify
    rcases List.mem_cons.1 hm with rfl | hm2
    · rw [if_neg (by simp [hlive])]
      split_ifs with h2
      · exact Or.inl (List.mem_cons_self _ _)
      · exact Or.inr (List.mem_cons_self _ _)
    · split_ifs with h1 h2
      · exact ih desired m hm2 hlive
      · dsimp only
        rcases ih (desired.erase (pairOf m0)) m hm2 hlive with hk | hc
        · exact Or.inl (List.mem_cons_of_mem _ hk)
        · exact Or.inr hc
      · dsimp only
        rcases ih desired m hm2 hlive with hk | hc
        · exact Or.inl hk
        · exact Or.inr (List.mem_cons_of_mem _ hc)

theorem classify_remaining_sub (current : List MOrder) (desired : List (ℚ × ℚ)) :
    (classify current desired).2.2 ⊆ desired := by
  induction current generalizing desired with
  | nil => simp [classify]
  | cons m0 rest ih =>
    unfold classify
    split_ifs with h1 h2
    · exact ih desired
    · dsimp only
      exact (ih _).trans (List.erase_subset _ _)
    · dsimp only
      exact ih desired

theorem classify_desired_split (current : List MOrder) (desired : List (ℚ × ℚ)) :
    ∀ pr ∈ desired,
      pr ∈ (classify current desired).2.2 ∨
      pr ∈ (classify current desired).1.map pairOf := by
  induction current generalizing desired with
  | nil => intro pr hpr; exact Or.inl (by simpa [classify] using hpr)
  | cons m0 rest ih =>
    intro pr hpr
    unfold classify
    split_ifs with h1 h2
    · exact ih desired pr hpr
    · dsimp only
      by_cases hpm : pr = pairOf m0
      · exact Or.inr (by simp [hpm])
      · have hpr2 : pr ∈ desired.erase (pairOf m0) :=
          (List.mem_erase_of_ne hpm).2 hpr
        rcases ih _ pr hpr2 with hr | hk
        · exact Or.inl hr
        · exact Or.inr (by simpa using Or.inr (List.mem_map.1 hk))
    · dsimp only
      exact ih desired pr hpr

theorem classify_remaining_nodup (current : List MOrder) (desired : List (ℚ × ℚ))
    (hnd : desired.Nodup) : (classify current desired).2.2.Nodup := by
  induction current generalizing desired with
  | nil => simpa [classify] using hnd
  | cons m0 rest ih =>
    unfold classify
    split_ifs with h1 h2
    · exact ih desired hnd
    · dsimp only
      exact ih _ (hnd.erase _)
    · dsimp only
      exact ih desired hnd

theorem placeLoop_map_pair (qs desired : List (ℚ × ℚ)) (next_id : ℕ) :
    (placeLoop qs desired next_id).map pairOf =
      qs.filter (fun q => decide (q ∈ desired)) := by
  induction qs generalizing next_id with
  | nil => simp [placeLoop]
  | cons q rest ih =>
    unfold placeLoop
    by_cases hq : q ∈ desired
    · rw [if_pos hq]
      simp only [List.map_cons, ih, List.filter_cons]
      rw [if_pos (by simpa using hq)]
      rfl
    · rw [if_neg hq]
      rw [ih]
      simp only [List.filter_cons]
      rw [if_neg (by simpa using hq)]

theorem placeLoop_live (qs desired : List (ℚ × ℚ)) (next_id : ℕ) :
    ∀ m ∈ placeLoop qs desired next_id, m.status = OStatus.LIVE := by
  induction qs generalizing next_id with
  | nil => simp [placeLoop]
  | cons q rest ih =>
    intro m hm
    unfold placeLoop at hm
    split_ifs at hm with hq
    · rcases List.mem_cons.1 hm with rfl | hm2
      · rfl
      · exact ih _ m hm2
    · exact ih _ m hm

end PolyMM

namespace PolyMM

/-- C5 amended: for one reconciliation with all cancels and placements
succeeding, and assuming the desired quotes carry pairwise-distinct
`(price, size)` pairs (which `_update_side` receives from the quote
engine but does not itself guarantee: a duplicated pair would be placed
once per occurrence): tracked LIVE orders are partitioned into keeps
(first match consumes a desired pair) and cancels, all cancel events
precede all placement events, exactly one order is placed per unconsumed
desired pair, and afterwards the `(price, size)` pairs of tracked LIVE
orders are exactly the desired pairs. -/
theorem c5_update_side_amended (new_quotes : List (ℚ × ℚ))
    (current_orders : List MOrder) (next_id : ℕ) (hnd : new_quotes.Nodup) :
    (∀ m ∈ current_orders, m.status = OStatus.LIVE →
      m ∈ (classify current_orders new_quotes.dedup).1 ∨
      m ∈ (classify current_orders new_quotes.dedup).2.1) ∧
    (∀ m ∈ (classify current_orders new_quotes.dedup).1,
      m.status = OStatus.LIVE ∧ pairOf m ∈ new_quotes) ∧
    (update_side new_quotes current_orders next_id).events.Pairwise
      (fun a b => a.isPlace = true → b.isPlace = true) ∧
    ((update_side new_quotes current_orders next_id).placed.map pairOf).Nodup ∧
    (∀ pr, pr ∈ (update_side new_quotes current_orders next_id).placed.map pairOf ↔
      pr ∈ new_quotes ∧ pr ∈ (classify current_orders new_quotes.dedup).2.2) ∧
    (∀ pr, (∃ m ∈ (update_side new_quotes current_orders next_id).tracked,
        m.status = OStatus.LIVE ∧ pairOf m = pr) ↔ pr ∈ new_quotes) := by
  have hmapeq : (update_side new_quotes current_orders next_id).placed.map pairOf =
      new_quotes.filter
        (fun q => decide (q ∈ (classify current_orders new_quotes.dedup).2.2)) := by
    unfold update_side
    exact placeLoop_map_pair _ _ _
  refine ⟨classify_partition _ _, ?_, ?_, ?_, ?_, ?_⟩
  · intro m hm
    obtain ⟨hs, hp⟩ := classify_keeps _ _ m hm
    exact ⟨hs, List.dedup_subset _ hp⟩
  · unfold update_side
    dsimp only
    rw [List.pairwise_append]
    refine ⟨?_, ?_, ?_⟩
    · rw [List.pairwise_map]
      exact List.pairwise_of_forall (fun x y h =>
        absurd h (by simp [SideEvent.isPlace]))
    · rw [List.pairwise_map]
      exact List.pairwise_of_forall (fun x y _ => rfl)
    · intro a ha b hb
      obtain ⟨x, hx, rfl⟩ := List.mem_map.1 ha
      intro h
      exact absurd h (by simp [SideEvent.isPlace])
  · rw [hmapeq]
    exact hnd.filter _
  · intro pr
    rw [hmapeq, List.mem_filter]
    simp only [decide_eq_true_eq]
  · intro pr
    constructor
    · rintro ⟨m, hm, hlive, rfl⟩
      unfold update_side at hm
      dsimp only at hm
      rcases List.mem_append.1 hm with hk | hp
      · exact List.dedup_subset _ (classify_keeps _ _ m hk).2
      · have : pairOf m ∈ (update_side new_quotes current_orders next_id).placed.map
            pairOf := List.mem_map_of_mem _ hp
        rw [hmapeq] at this
        exact (List.mem_filter.1 this).1
    · intro hpr
      have hdedup : pr ∈ new_quotes.dedup := List.mem_dedup.2 hpr
      rcases classify_desired_split current_orders new_quotes.dedup pr hdedup with hr | hk
      · have hpl : pr ∈ (update_side new_quotes current_orders next_id).placed.map
            pairOf := by
          rw [hmapeq, List.mem_filter]
          exact ⟨hpr, by simpa using hr⟩
        obtain ⟨m, hm, rfl⟩ := List.mem_map.1 hpl
        refine ⟨m, ?_, ?_, rfl⟩
        · unfold update_side
          dsimp only
          exact List.mem_append.2 (Or.inr (by simpa [update_side] using hm))
        · have := placeLoop_live new_quotes
            (classify current_orders new_quotes.dedup).2.2 next_id m
          exact this (by simpa [update_side] using hm)
      · obtain ⟨m, hm, rfl⟩ := List.mem_map.1 hk
        refine ⟨m, ?_, (classify_keeps _ _ m hm).1, rfl⟩
        unfold update_side
        dsimp only
        exact List.mem_append.2 (Or.inl hm)

/-- Witness for `c5_update_side_amended`: a drifted single quote is
reconciled; the event trace has no cancel after a placement and the placed
pairs are distinct. -/
theorem c5_update_side_amended_witness :
    (update_side [(48/100, 20)] [⟨7, 1/2, 20, OStatus.LIVE⟩] 10).events.Pairwise
      (fun a b => a.isPlace = true → b.isPlace = true) ∧
    ((update_side [(48/100, 20)] [⟨7, 1/2, 20, OStatus.LIVE⟩] 10).placed.map
      pairOf).Nodup := by
  have h := c5_update_side_amended [(48/100, 20)] [⟨7, 1/2, 20, OStatus.LIVE⟩] 10
    (by simp)
  exact ⟨h.2.2.1, h.2.2.2.1⟩

/-- C5 counterexample: on a desired list that repeats the pair (0.5, 10),
the placement loop never removes a consumed pair, so it places TWO orders
for the single desired pair (the desired set after dedup is a singleton
and there are no live orders to consume it). -/
theorem c5_duplicate_pair_counterexample :
    ([((1:ℚ)/2, (10:ℚ)), ((1:ℚ)/2, (10:ℚ))] : List (ℚ × ℚ)).dedup =
      [((1:ℚ)/2, (10:ℚ))] ∧
    (update_side [(1/2, 10), (1/2, 10)] [] 0).cancelled = [] ∧
    (update_side [(1/2, 10), (1/2, 10)] [] 0).placed.length = 2 := by
  have hd : ([((1:ℚ)/2, (10:ℚ)), ((1:ℚ)/2, (10:ℚ))] : List (ℚ × ℚ)).dedup =
      [((1:ℚ)/2, (10:ℚ))] := by
    simp
  refine ⟨hd, ?_, ?_⟩
  · unfold update_side
    dsimp only
    rw [hd]
    rfl
  · unfold update_side
    dsimp only
    rw [hd]
    show (placeLoop [(1/2, 10), (1/2, 10)] [(1/2, 10)] 0).length = 2
    unfold placeLoop
    rw [if_pos (List.mem_singleton.2 rfl)]
    unfold placeLoop
    rw [if_pos (List.mem_singleton.2 rfl)]
    rfl

end PolyMM

namespace PolyMM

/-! Paper-trading simulator from `src/paper_simulator.py`.  Latency sleeps
and the random fill gate are not state; a `restingFill` step models one
500ms tick of `_check_resting_fill` in which the coin flip succeeded.
Wall-clock quantities (the elapsed seconds of the volume window, the
mid-price move since placement) are passed as parameters.  Order ids are
natural numbers issued by a counter in place of `paper_<uuid>` strings;
the statistics counters feed no claim and are omitted. -/

/-- Simulator order, `QueuedOrder` (fill timestamps are not modelled). -/
structure QueuedOrder where
  order_id : ℕ
  token_id : String
  side : Side
  price : ℚ
  size : ℚ
  size_matched : ℚ
  status : OStatus
  queue_position : ℚ
  initial_queue_depth : ℚ
  fills : List (ℚ × ℚ)
deriving DecidableEq, Repr

def QueuedOrder.size_remaining (o : QueuedOrder) : ℚ := o.size - o.size_matched

def QueuedOrder.is_live (o : QueuedOrder) : Bool :=
  match o.status with
  | OStatus.LIVE => true
  | OStatus.PARTIAL => true
  | _ => false

/-- Market state kept per asset (`MarketState`); the 5-minute mid-price
history is time-based and is represented through the `price_move`
parameter of the fill-probability function instead. -/
structure MarketState where
  best_bid : Option ℚ
  best_ask : Option ℚ
  bid_depth : List (ℚ × ℚ)
  ask_depth : List (ℚ × ℚ)
  recent_volume : ℚ
  trade_count : ℕ
deriving DecidableEq, Repr

def emptyMarket : MarketState := ⟨none, none, [], [], 0, 0⟩

/-- Insert-or-overwrite one price level of a depth dict. -/
def dsetPrice : List (ℚ × ℚ) → ℚ → ℚ → List (ℚ × ℚ)
  | [], price, size => [(price, size)]
  | (p, s) :: rest, price, size =>
    if p = price then (p, size) :: rest else (p, s) :: dsetPrice rest price size

/-- Python dict comprehension over a level list: later duplicates of a
price overwrite earlier ones; keys end up unique. -/
def dictOfLevels (levels : List (ℚ × ℚ)) : List (ℚ × ℚ) :=
  levels.foldl (fun d kv => dsetPrice d kv.1 kv.2) []

/-- `MarketState.update_from_orderbook`: rebuild both depth dicts; best
prices are only overwritten when the respective side is nonempty. -/
def MarketState.update_from_orderbook (m : MarketState) (bids asks : List (ℚ × ℚ)) :
    MarketState :=
  let bid_depth := dictOfLevels bids
  let ask_depth := dictOfLevels asks
  ⟨if bids.isEmpty then m.best_bid else (bid_depth.map Prod.fst).max?,
   if asks.isEmpty then m.best_ask else (ask_depth.map Prod.fst).min?,
   bid_depth, ask_depth, m.recent_volume, m.trade_count⟩

/-- `MarketState.record_market_trade`: the 60s window reset depends on
wall-clock time and is driven by the `reset` parameter. -/
def MarketState.record_market_trade (m : MarketState) (size : ℚ) (reset : Bool) :
    MarketState :=
  let m1 : MarketState :=
    if reset then ⟨m.best_bid, m.best_ask, m.bid_depth, m.ask_depth, 0, 0⟩ else m
  ⟨m1.best_bid, m1.best_ask, m1.bid_depth, m1.ask_depth,
   m1.recent_volume + size, m1.trade_count + 1⟩

/-- `MarketState.get_volume_per_second`; `elapsed` is the wall-clock age
of the window, floored at one second as in the source. -/
def MarketState.get_volume_per_second (m : MarketState) (elapsed : ℚ) : ℚ :=
  m.recent_volume / max 1 elapsed

/-- `MarketState.get_queue_depth_at_price`: total size at the order's
price or better. -/
def MarketState.get_queue_depth_at_price (m : MarketState) (price : ℚ) (side : Side) : ℚ :=
  match side with
  | Side.buy => ((m.bid_depth.filter (fun kv => decide (price ≤ kv.1))).map Prod.snd).sum
  | Side.sell => ((m.ask_depth.filter (fun kv => decide (kv.1 ≤ price))).map Prod.snd).sum

/-- Simulator state (`PaperTradingSimulator`): fee configuration, the
partial-fill toggle, balance, the order table, per-asset positions and
market states, and the id counter. -/
structure SimState where
  maker_fee : ℚ
  taker_fee : ℚ
  enable_partial_fills : Bool
  balance : ℚ
  orders : List QueuedOrder
  positions : List (String × ℚ)
  market_states : List (String × MarketState)
  next_id : ℕ
deriving DecidableEq, Repr

/-- Simulator with the constructor defaults (balance 1000, zero fees,
partial fills on). -/
def initSim : SimState := ⟨0, 0, true, 1000, [], [], [], 0⟩

def getOrder (s : SimState) (oid : ℕ) : Option QueuedOrder :=
  s.orders.find? (fun o => o.order_id == oid)

/-- Update every order with the given id (ids are unique, see `SimInv`). -/
def updOrder (s : SimState) (oid : ℕ) (f : QueuedOrder → QueuedOrder) : SimState :=
  ⟨s.maker_fee, s.taker_fee, s.enable_partial_fills, s.balance,
   s.orders.map (fun o => if o.order_id = oid then f o else o),
   s.positions, s.market_states, s.next_id⟩

def getMarket (s : SimState) (token_id : String) : Option MarketState :=
  (s.market_states.find? (fun kv => kv.1 == token_id)).map Prod.snd

def setMarket : List (String × MarketState) → String → MarketState →
    List (String × MarketState)
  | [], token_id, m => [(token_id, m)]
  | (k, m0) :: rest, token_id, m =>
    if k = token_id then (k, m) :: rest else (k, m0) :: setMarket rest token_id m

def pget (l : List (String × ℚ)) (k : String) : ℚ :=
  ((l.find? (fun kv => kv.1 == k)).map Prod.snd).getD 0

def pset : List (String × ℚ) → String → ℚ → List (String × ℚ)
  | [], k, v => [(k, v)]
  | (k0, v0) :: rest, k, v =>
    if k0 = k then (k0, v) :: rest else (k0, v0) :: pset rest k v

/-- `PaperTradingSimulator.update_orderbook`. -/
def SimState.update_orderbook (s : SimState) (token_id : String)
    (bids asks : List (ℚ × ℚ)) : SimState :=
  let m := (getMarket s token_id).getD emptyMarket
  ⟨s.maker_fee, s.taker_fee, s.enable_partial_fills, s.balance, s.orders, s.positions,
   setMarket s.market_states token_id (m.update_from_orderbook bids asks), s.next_id⟩

/-- `PaperTradingSimulator.record_market_trade`. -/
def SimState.record_market_trade (s : SimState) (token_id : String) (size : ℚ)
    (reset : Bool) : SimState :=
  let m := (getMarket s token_id).getD emptyMarket
  ⟨s.maker_fee, s.taker_fee, s.enable_partial_fills, s.balance, s.orders, s.positions,
   setMarket s.market_states token_id (m.record_market_trade size reset), s.next_id⟩

/-- Apply one fill to an order: accumulate `size_matched`, log the fill,
set MATCHED when `size_matched >= size`, else PARTIAL
(`_execute_fill`, order-state part). -/
def fillOrder (o : QueuedOrder) (price size : ℚ) : QueuedOrder :=
  ⟨o.order_id, o.token_id, o.side, o.price, o.size, o.size_matched + size,
   (if o.size ≤ o.size_matched + size then OStatus.MATCHED else OStatus.PARTIAL),
   o.queue_position, o.initial_queue_depth, o.fills ++ [(price, size)]⟩

def setStatus (o : QueuedOrder) (st : OStatus) : QueuedOrder :=
  ⟨o.order_id, o.token_id, o.side, o.price, o.size, o.size_matched, st,
   o.queue_position, o.initial_queue_depth, o.fills⟩

def setQueuePosition (o : QueuedOrder) (q : ℚ) : QueuedOrder :=
  ⟨o.order_id, o.token_id, o.side, o.price, o.size, o.size_matched, o.status,
   q, o.initial_queue_depth, o.fills⟩

/-- `PaperTradingSimulator._execute_fill`: update the order, the position
and the balance (statistics and the fill callback are external). -/
def execute_fill (s : SimState) (oid : ℕ) (price size : ℚ) (is_maker : Bool) : SimState :=
  match getOrder s oid with
  | none => s
  | some o =>
    let fee := price * size * (if is_maker then s.maker_fee else s.taker_fee)
    let s2 := updOrder s oid (fun oo => fillOrder oo price size)
    match o.side with
    | Side.buy =>
      ⟨s2.maker_fee, s2.taker_fee, s2.enable_partial_fills,
       s2.balance - (price * size + fee), s2.orders,
       pset s2.positions o.token_id (pget s2.positions o.token_id + size),
       s2.market_states, s2.next_id⟩
    | Side.sell =>
      ⟨s2.maker_fee, s2.taker_fee, s2.enable_partial_fills,
       s2.balance + (price * size - fee), s2.orders,
       pset s2.positions o.token_id (pget s2.positions o.token_id - size),
       s2.market_states, s2.next_id⟩

/-- Book walk of `_execute_crossing_order`: consume sorted levels while
the level price is within the limit, capping each fill at the remaining
size; stop once nothing remains. -/
def walkBook : List (ℚ × ℚ) → (ℚ → Bool) → ℚ → List (ℚ × ℚ)
  | [], _, _ => []
  | (p, avail) :: rest, within, rem =>
    if ¬ within p then []
    else
      let fs := min rem avail
      if 0 < fs then
        if rem - fs ≤ 0 then [(p, fs)]
        else (p, fs) :: walkBook rest within (rem - fs)
      else
        if rem ≤ 0 then [] else walkBook rest within rem

def sortAsc (d : List (ℚ × ℚ)) : List (ℚ × ℚ) :=
  d.mergeSort (fun a b => decide (a.1 ≤ b.1))

def sortDesc (d : List (ℚ × ℚ)) : List (ℚ × ℚ) :=
  d.mergeSort (fun a b => decide (b.1 ≤ a.1))

/-- `PaperTradingSimulator._execute_crossing_order`: walk the opposite
side best-first, execute the collected fills as taker fills, and rest any
remainder at the front of the queue at the limit price. -/
def execute_crossing_order (s : SimState) (oid : ℕ) : SimState :=
  match getOrder s oid with
  | none => s
  | some o =>
    match getMarket s o.token_id with
    | none => s
    | some m =>
      let fills :=
        match o.side with
        | Side.buy =>
          walkBook (sortAsc m.ask_depth) (fun p => decide (p ≤ o.price)) o.size_remaining
        | Side.sell =>
          walkBook (sortDesc m.bid_depth) (fun p => decide (o.price ≤ p)) o.size_remaining
      let s2 := fills.foldl (fun st pr => execute_fill st oid pr.1 pr.2 false) s
      match getOrder s2 oid with
      | none => s2
      | some o2 =>
        if 0 < o2.size_remaining then updOrder s2 oid (fun oo => setQueuePosition oo 0)
        else s2

/-- `PaperTradingSimulator._check_immediate_fill`: the truthiness guard
`if ... and market.best_ask:` makes a zero best price non-crossing. -/
def check_immediate_fill (s : SimState) (oid : ℕ) : SimState :=
  match getOrder s oid with
  | none => s
  | some o =>
    match getMarket s o.token_id with
    | none => s
    | some m =>
      let is_crossing : Bool :=
        match o.side with
        | Side.buy =>
          match m.best_ask with
          | some ba => decide (ba ≠ 0 ∧ ba ≤ o.price)
          | none => false
        | Side.sell =>
          match m.best_bid with
          | some bb => decide (bb ≠ 0 ∧ o.price ≤ bb)
          | none => false
      if is_crossing then execute_crossing_order s oid else s

/-- `PaperTradingSimulator.place_order`: queue position and initial depth
are the foreign size at the price or better; then crossing orders execute
immediately. -/
def place_order (s : SimState) (token_id : String) (side : Side)
    (price size : ℚ) : SimState :=
  let market := (getMarket s token_id).getD emptyMarket
  let queue_depth := market.get_queue_depth_at_price price side
  let o : QueuedOrder := ⟨s.next_id, token_id, side, price, size, 0, OStatus.LIVE,
    queue_depth, queue_depth, []⟩
  let s2 : SimState := ⟨s.maker_fee, s.taker_fee, s.enable_partial_fills, s.balance,
    s.orders ++ [o], s.positions, s.market_states, s.next_id + 1⟩
  check_immediate_fill s2 s.next_id

/-- One successful tick of `_check_resting_fill` for a live order: the
fill size is half a second of estimated volume, at least one share,
capped at the remaining size (or the whole remainder when partial fills
are disabled); the fill executes at the limit price as maker. -/
def check_resting_fill (s : SimState) (oid : ℕ) (elapsed : ℚ) : SimState :=
  match getOrder s oid with
  | none => s
  | some o =>
    if o.is_live then
      match getMarket s o.token_id with
      | none => s
      | some m =>
        let fill_size :=
          if s.enable_partial_fills then
            min o.size_remaining (max 1 (m.get_volume_per_second elapsed * (1/2)))
          else o.size_remaining
        execute_fill s oid o.price fill_size true
    else s

/-- `PaperTradingSimulator.cancel_order`. -/
def cancel_order (s : SimState) (oid : ℕ) : Bool × SimState :=
  match getOrder s oid with
  | some o =>
    if o.is_live then
      (true, updOrder s oid (fun oo => setStatus oo OStatus.CANCELLED))
    else (false, s)
  | none => (false, s)

/-- `PaperTradingSimulator.cancel_all_orders`. -/
def cancel_all_orders (s : SimState) (token_id : Option String) : SimState :=
  ⟨s.maker_fee, s.taker_fee, s.enable_partial_fills, s.balance,
   s.orders.map (fun o =>
     if o.is_live ∧ (token_id = none ∨ token_id = some o.token_id) then
       setStatus o OStatus.CANCELLED
     else o),
   s.positions, s.market_states, s.next_id⟩

/-- Queue-progress multiplier of `_calculate_fill_probability`
(`0.2 + 0.8 * clamp(1 - queue_position / initial_queue_depth)`), applied
only when `initial_queue_depth > 0` (otherwise the probability is left
unscaled, represented by factor 1). -/
def queue_factor (o : QueuedOrder) : ℚ :=
  if 0 < o.initial_queue_depth then
    let queue_progress := max 0 (min 1 (1 - o.queue_position / o.initial_queue_depth))
    2/10 + queue_progress * (8/10)
  else 1

/-- `PaperTradingSimulator._calculate_fill_probability`.  `elapsed` feeds
the volume estimate and `price_move` stands for
`market.get_price_move(order.created_at)`, both wall-clock-derived. -/
def calculate_fill_probability (o : QueuedOrder) (m : MarketState)
    (elapsed price_move : ℚ) (enable_adverse : Bool) : ℚ :=
  let base0 := (2/100 : ℚ) / 2
  let vps := m.get_volume_per_second elapsed
  let base1 := if 0 < vps then base0 * (1 + min 3 (vps / 10)) else base0
  let base2 := if 0 < o.initial_queue_depth then base1 * queue_factor o else base1
  let base3 :=
    if enable_adverse then
      match o.side with
      | Side.buy =>
        if price_move < 0 then base2 * 3
        else if 0 < price_move then base2 * (3/10) else base2
      | Side.sell =>
        if 0 < price_move then base2 * 3
        else if price_move < 0 then base2 * (3/10) else base2
    else base2
  min 1 base3

/-- The simulator operations reachable from its public surface:
order-book updates, observed market trades, placements (which include any
immediate crossing execution), successful resting-fill ticks, and
cancellations. -/
inductive SimOp where
  | updateBook (token_id : String) (bids asks : List (ℚ × ℚ))
  | recordTrade (token_id : String) (size : ℚ) (reset : Bool)
  | place (token_id : String) (side : Side) (price size : ℚ)
  | restingFill (oid : ℕ) (elapsed : ℚ)
  | cancel (oid : ℕ)
  | cancelAll (token_id : Option String)

def applySimOp (s : SimState) (op : SimOp) : SimState :=
  match op with
  | SimOp.updateBook token_id bids asks => s.update_orderbook token_id bids asks
  | SimOp.recordTrade token_id size reset => s.record_market_trade token_id size reset
  | SimOp.place token_id side price size => place_order s token_id side price size
  | SimOp.restingFill oid elapsed => check_resting_fill s oid elapsed
  | SimOp.cancel oid => (cancel_order s oid).2
  | SimOp.cancelAll token_id => cancel_all_orders s token_id

def applySimOps (s : SimState) (ops : List SimOp) : SimState :=
  ops.foldl applySimOp s

/-- Well-formed inputs: book updates carry nonnegative sizes (order books
publish nonnegative level sizes) and placements nonnegative order sizes. -/
def wfOp : SimOp → Prop
  | SimOp.updateBook _ bids asks => (∀ pr ∈ bids, 0 ≤ pr.2) ∧ (∀ pr ∈ asks, 0 ≤ pr.2)
  | SimOp.place _ _ _ size => 0 ≤ size
  | _ => True

end PolyMM

namespace PolyMM

/-- Per-order invariant: the queue position never exceeds the initial
depth (which is nonnegative), the matched size is the sum of the logged
fills, and every prefix of the fill log sums to at most the order size
(equivalently: each fill was capped at the size remaining before it). -/
def OrderInv (o : QueuedOrder) : Prop :=
  o.queue_position ≤ o.initial_queue_depth ∧
  0 ≤ o.initial_queue_depth ∧
  o.size_matched = (o.fills.map Prod.snd).sum ∧
  ∀ n, ((o.fills.take n).map Prod.snd).sum ≤ o.size

/-- Market-state invariant: all depth sizes are nonnegative. -/
def MarketInv (m : MarketState) : Prop :=
  (∀ pr ∈ m.bid_depth, 0 ≤ pr.2) ∧ (∀ pr ∈ m.ask_depth, 0 ≤ pr.2)

/-- Simulator invariant: all orders and market states are well formed,
order ids are unique and below the id counter. -/
def SimInv (s : SimState) : Prop :=
  (∀ o ∈ s.orders, OrderInv o) ∧
  (∀ km ∈ s.market_states, MarketInv km.2) ∧
  (s.orders.map QueuedOrder.order_id).Nodup ∧
  (∀ o ∈ s.orders, o.order_id < s.next_id)

theorem dsetPrice_nonneg (d : List (ℚ × ℚ)) (price size : ℚ)
    (hd : ∀ pr ∈ d, 0 ≤ pr.2) (hsz : 0 ≤ size) :
    ∀ pr ∈ dsetPrice d price size, 0 ≤ pr.2 := by
  induction d with
  | nil =>
    intro pr hpr
    unfold dsetPrice at hpr
    rcases List.mem_singleton.1 hpr with rfl
    exact hsz
  | cons kv rest ih =>
    obtain ⟨p0, s0⟩ := kv
    intro pr hpr
    unfold dsetPrice at hpr
    split_ifs at hpr with hp
    · rcases List.mem_cons.1 hpr with rfl | hpr2
      · exact hsz
      · exact hd _ (List.mem_cons_of_mem _ hpr2)
    · rcases List.mem_cons.1 hpr with rfl | hpr2
      · exact hd _ (List.mem_cons_self _ _)
      · exact ih (fun q hq => hd q (List.mem_cons_of_mem _ hq)) pr hpr2

theorem dictOfLevels_nonneg (levels : List (ℚ × ℚ))
    (h : ∀ pr ∈ levels, 0 ≤ pr.2) :
    ∀ pr ∈ dictOfLevels levels, 0 ≤ pr.2 := by
  suffices haux : ∀ (ls : List (ℚ × ℚ)) (acc : List (ℚ × ℚ)),
      (∀ pr ∈ acc, 0 ≤ pr.2) → (∀ pr ∈ ls, 0 ≤ pr.2) →
      ∀ pr ∈ ls.foldl (fun d kv => dsetPrice d kv.1 kv.2) acc, 0 ≤ pr.2 by
    exact haux levels [] (by simp) h
  intro ls
  induction ls with
  | nil => intro acc hacc _ pr hpr; exact hacc pr hpr
  | cons kv rest ih =>
    intro acc hacc hls pr hpr
    exact ih (dsetPrice acc kv.1 kv.2)
      (dsetPrice_nonneg acc kv.1 kv.2 hacc (hls kv (List.mem_cons_self _ _)))
      (fun q hq => hls q (List.mem_cons_of_mem _ hq)) pr hpr

theorem update_from_orderbook_inv (m : MarketState) (bids asks : List (ℚ × ℚ))
    (hb : ∀ pr ∈ bids, 0 ≤ pr.2) (ha : ∀ pr ∈ asks, 0 ≤ pr.2) :
    MarketInv (m.update_from_orderbook bids asks) :=
  ⟨dictOfLevels_nonneg bids hb, dictOfLevels_nonneg asks ha⟩

theorem record_market_trade_inv (m : MarketState) (size : ℚ) (reset : Bool)
    (hm : MarketInv m) : MarketInv (m.record_market_trade size reset) := by
  unfold MarketState.record_market_trade
  cases reset <;> exact hm

theorem setMarket_inv (ms : List (String × MarketState)) (token_id : String)
    (m : MarketState) (hms : ∀ km ∈ ms, MarketInv km.2) (hm : MarketInv m) :
    ∀ km ∈ setMarket ms token_id m, MarketInv km.2 := by
  induction ms with
  | nil =>
    intro km hkm
    unfold setMarket at hkm
    rcases List.mem_singleton.1 hkm with rfl
    exact hm
  | cons kv rest ih =>
    obtain ⟨k0, m0⟩ := kv
    intro km hkm
    unfold setMarket at hkm
    split_ifs at hkm with hk
    · rcases List.mem_cons.1 hkm with rfl | hkm2
      · exact hm
      · exact hms _ (List.mem_cons_of_mem _ hkm2)
    · rcases List.mem_cons.1 hkm with rfl | hkm2
      · exact hms _ (List.mem_cons_self _ _)
      · exact ih (fun q hq => hms q (List.mem_cons_of_mem _ hq)) km hkm2

theorem get_queue_depth_nonneg (m : MarketState) (price : ℚ) (side : Side)
    (hm : MarketInv m) : 0 ≤ m.get_queue_depth_at_price price side := by
  unfold MarketState.get_queue_depth_at_price
  cases side
  · refine List.sum_nonneg ?_
    intro x hx
    obtain ⟨pr, hpr, rfl⟩ := List.mem_map.1 hx
    exact hm.1 pr (List.mem_of_mem_filter hpr)
  · refine List.sum_nonneg ?_
    intro x hx
    obtain ⟨pr, hpr, rfl⟩ := List.mem_map.1 hx
    exact hm.2 pr (List.mem_of_mem_filter hpr)

theorem fillOrder_inv (o : QueuedOrder) (price z : ℚ) (hinv : OrderInv o)
    (hz : z ≤ o.size_remaining) : OrderInv (fillOrder o price z) := by
  obtain ⟨h1, h2, h3, h4⟩ := hinv
  refine ⟨h1, h2, ?_, ?_⟩
  · show o.size_matched + z = ((o.fills ++ [(price, z)]).map Prod.snd).sum
    rw [List.map_append, List.sum_append, ← h3]
    simp
  · intro n
    show (((o.fills ++ [(price, z)]).take n).map Prod.snd).sum ≤ o.size
    rw [List.take_append_eq_append_take, List.map_append, List.sum_append]
    rcases Nat.eq_zero_or_pos (n - o.fills.length) with hz0 | hpos
    · rw [hz0]
      simpa using h4 n
    · have htake1 : ([((price, z) : ℚ × ℚ)].take (n - o.fills.length)) = [(price, z)] := by
        cases hnn : n - o.fills.length with
        | zero => omega
        | succ k => simp [List.take_succ_cons]
      have hlen : o.fills.length ≤ n := by omega
      rw [htake1, List.take_of_length_le hlen]
      have hfull := h4 o.fills.length
      rw [List.take_length] at hfull
      unfold QueuedOrder.size_remaining at hz
      simp only [List.map_cons, List.map_nil, List.sum_cons, List.sum_nil]
      rw [← h3]
      linarith

theorem walkBook_take_sum (levels : List (ℚ × ℚ)) (within : ℚ → Bool) (rem : ℚ)
    (hrem : 0 ≤ rem) :
    ∀ n, (((walkBook levels within rem).take n).map Prod.snd).sum ≤ rem := by
  induction levels generalizing rem with
  | nil =>
    intro n
    simpa [walkBook] using hrem
  | cons kv rest ih =>
    obtain ⟨p, avail⟩ := kv
    intro n
    unfold walkBook
    by_cases hw : within p = true
    · rw [if_neg (not_not_intro hw)]
      dsimp only
      by_cases hfs : 0 < min rem avail
      · rw [if_pos hfs]
        by_cases hdone : rem - min rem avail ≤ 0
        · rw [if_pos hdone]
          cases n with
          | zero => simpa using hrem
          | succ k =>
            have hmin : min rem avail ≤ rem := min_le_left _ _
            simp only [List.take_succ_cons, List.take_nil, List.map_cons, List.map_nil,
              List.sum_cons, List.sum_nil]
            linarith
        · rw [if_neg hdone]
          cases n with
          | zero => simpa using hrem
          | succ k =>
            have hrec := ih (rem - min rem avail) (by linarith [not_le.1 hdone]) k
            have hmin : min rem avail ≤ rem := min_le_left _ _
            simp only [List.take_succ_cons, List.map_cons, List.sum_cons]
            linarith
      · rw [if_neg hfs]
        by_cases hr0 : rem ≤ 0
        · rw [if_pos hr0]
          simpa using hrem
        · rw [if_neg hr0]
          exact ih rem hrem n
    · rw [if_pos hw]
      simpa using hrem

end PolyMM

namespace PolyMM

theorem execute_fill_orders_eq (s : SimState) (oid : ℕ) (p z : ℚ) (mk : Bool) :
    (execute_fill s oid p z mk).orders =
      match getOrder s oid with
      | none => s.orders
      | some _ => s.orders.map (fun o => if o.order_id = oid then fillOrder o p z else o) := by
  unfold execute_fill
  cases getOrder s oid with
  | none => rfl
  | some o =>
    dsimp only
    cases o.side <;> rfl

theorem execute_fill_frame (s : SimState) (oid : ℕ) (p z : ℚ) (mk : Bool) :
    (execute_fill s oid p z mk).market_states = s.market_states ∧
    (execute_fill s oid p z mk).next_id = s.next_id := by
  unfold execute_fill
  cases getOrder s oid with
  | none => exact ⟨rfl, rfl⟩
  | some o =>
    dsimp only
    cases o.side <;> exact ⟨rfl, rfl⟩

theorem map_preserving_ids (l : List QueuedOrder) (g : QueuedOrder → QueuedOrder)
    (hg : ∀ o, (g o).order_id = o.order_id) :
    (l.map g).map QueuedOrder.order_id = l.map QueuedOrder.order_id := by
  rw [List.map_map]
  apply List.map_congr_left
  intro o _
  exact hg o

theorem execute_fill_ids (s : SimState) (oid : ℕ) (p z : ℚ) (mk : Bool) :
    (execute_fill s oid p z mk).orders.map QueuedOrder.order_id =
      s.orders.map QueuedOrder.order_id := by
  rw [execute_fill_orders_eq]
  cases getOrder s oid with
  | none => rfl
  | some o =>
    apply map_preserving_ids
    intro o1
    split_ifs <;> rfl

theorem foldl_execute_fill_frame (ws : List (ℚ × ℚ)) (s : SimState) (oid : ℕ) :
    ((ws.foldl (fun st pr => execute_fill st oid pr.1 pr.2 false) s).orders.map
      QueuedOrder.order_id = s.orders.map QueuedOrder.order_id) ∧
    (ws.foldl (fun st pr => execute_fill st oid pr.1 pr.2 false) s).market_states =
      s.market_states ∧
    (ws.foldl (fun st pr => execute_fill st oid pr.1 pr.2 false) s).next_id =
      s.next_id := by
  induction ws generalizing s with
  | nil => exact ⟨rfl, rfl, rfl⟩
  | cons pr rest ih =>
    simp only [List.foldl_cons]
    obtain ⟨ia, ib, ic⟩ := ih (execute_fill s oid pr.1 pr.2 false)
    exact ⟨ia.trans (execute_fill_ids s oid pr.1 pr.2 false),
      ib.trans (execute_fill_frame s oid pr.1 pr.2 false).1,
      ic.trans (execute_fill_frame s oid pr.1 pr.2 false).2⟩

theorem foldl_execute_fill_orderInv (ws : List (ℚ × ℚ)) (s : SimState) (oid : ℕ)
    (hord : ∀ o ∈ s.orders, OrderInv o)
    (hfeas : ∀ o ∈ s.orders, o.order_id = oid →
      ∀ n, ((ws.take n).map Prod.snd).sum ≤ o.size_remaining) :
    ∀ o ∈ (ws.foldl (fun st pr => execute_fill st oid pr.1 pr.2 false) s).orders,
      OrderInv o := by
  induction ws generalizing s with
  | nil => exact hord
  | cons pr rest ih =>
    simp only [List.foldl_cons]
    apply ih
    · intro o ho
      rw [execute_fill_orders_eq] at ho
      cases hg : getOrder s oid with
      | none =>
        rw [hg] at ho
        exact hord o ho
      | some o0 =>
        rw [hg] at ho
        obtain ⟨o1, ho1, rfl⟩ := List.mem_map.1 ho
        by_cases hid : o1.order_id = oid
        · rw [if_pos hid]
          refine fillOrder_inv o1 pr.1 pr.2 (hord o1 ho1) ?_
          have h := hfeas o1 ho1 hid 1
          simpa using h
        · rw [if_neg hid]
          exact hord o1 ho1
    · intro o ho hid n
      rw [execute_fill_orders_eq] at ho
      cases hg : getOrder s oid with
      | none =>
        rw [hg] at ho
        have hnone := List.find?_eq_none.1 hg o ho
        exact absurd (by simpa using hid) hnone
      | some o0 =>
        rw [hg] at ho
        obtain ⟨o1, ho1, rfl⟩ := List.mem_map.1 ho
        by_cases hid1 : o1.order_id = oid
        · rw [if_pos hid1]
          rw [if_pos hid1] at hid
          have h := hfeas o1 ho1 hid1 (n + 1)
          simp only [List.take_succ_cons, List.map_cons, List.sum_cons] at h
          have hgoal : (fillOrder o1 pr.1 pr.2).size_remaining =
              o1.size - (o1.size_matched + pr.2) := rfl
          rw [hgoal]
          unfold QueuedOrder.size_remaining at h
          linarith
        · rw [if_neg hid1] at hid
          exact absurd hid hid1

theorem getOrder_eq_unique (s : SimState) (oid : ℕ) (o : QueuedOrder)
    (hnd : (s.orders.map QueuedOrder.order_id).Nodup)
    (hg : getOrder s oid = some o) :
    ∀ o1 ∈ s.orders, o1.order_id = oid → o1 = o := by
  intro o1 h1 hid
  unfold getOrder at hg
  have hmem : o ∈ s.orders := List.mem_of_find?_eq_some hg
  have hpo := List.find?_some hg
  have hido : o.order_id = oid := by simpa using hpo
  exact List.inj_on_of_nodup_map hnd h1 hmem (by rw [hid, hido])

theorem getOrder_mem (s : SimState) (oid : ℕ) (o : QueuedOrder)
    (hg : getOrder s oid = some o) : o ∈ s.orders ∧ o.order_id = oid := by
  unfold getOrder at hg
  refine ⟨List.mem_of_find?_eq_some hg, ?_⟩
  have hpo := List.find?_some hg
  simpa using hpo

end PolyMM

namespace PolyMM

theorem execute_fill_simInv (s : SimState) (oid : ℕ) (p z : ℚ) (mk : Bool)
    (hs : SimInv s)
    (hz : ∀ o ∈ s.orders, o.order_id = oid → z ≤ o.size_remaining) :
    SimInv (execute_fill s oid p z mk) := by
  obtain ⟨h1, h2, h3, h4⟩ := hs
  refine ⟨?_, ?_, ?_, ?_⟩
  · intro o ho
    rw [execute_fill_orders_eq] at ho
    cases hg : getOrder s oid with
    | none =>
      rw [hg] at ho
      exact h1 o ho
    | some o0 =>
      rw [hg] at ho
      obtain ⟨o1, ho1, rfl⟩ := List.mem_map.1 ho
      by_cases hid : o1.order_id = oid
      · rw [if_pos hid]
        exact fillOrder_inv o1 p z (h1 o1 ho1) (hz o1 ho1 hid)
      · rw [if_neg hid]
        exact h1 o1 ho1
  · rw [(execute_fill_frame s oid p z mk).1]
    exact h2
  · rw [execute_fill_ids]
    exact h3
  · intro o ho
    rw [execute_fill_orders_eq] at ho
    rw [(execute_fill_frame s oid p z mk).2]
    cases hg : getOrder s oid with
    | none =>
      rw [hg] at ho
      exact h4 o ho
    | some o0 =>
      rw [hg] at ho
      obtain ⟨o1, ho1, rfl⟩ := List.mem_map.1 ho
      by_cases hid : o1.order_id = oid
      · rw [if_pos hid]
        exact h4 o1 ho1
      · rw [if_neg hid]
        exact h4 o1 ho1

theorem updOrder_simInv (s : SimState) (oid : ℕ) (f : QueuedOrder → QueuedOrder)
    (hs : SimInv s) (hfid : ∀ o, (f o).order_id = o.order_id)
    (hfinv : ∀ o ∈ s.orders, OrderInv o → OrderInv (f o)) :
    SimInv (updOrder s oid f) := by
  obtain ⟨h1, h2, h3, h4⟩ := hs
  refine ⟨?_, h2, ?_, ?_⟩
  · intro o ho
    obtain ⟨o1, ho1, rfl⟩ := List.mem_map.1 ho
    split_ifs with hc
    · exact hfinv o1 ho1 (h1 o1 ho1)
    · exact h1 o1 ho1
  · show ((s.orders.map _).map QueuedOrder.order_id).Nodup
    rw [map_preserving_ids _ _ (fun o => by split_ifs <;> simp [hfid])]
    exact h3
  · intro o ho
    obtain ⟨o1, ho1, rfl⟩ := List.mem_map.1 ho
    show (if o1.order_id = oid then f o1 else o1).order_id < s.next_id
    split_ifs with hc
    · rw [hfid]
      exact h4 o1 ho1
    · exact h4 o1 ho1

theorem emptyMarket_inv : MarketInv emptyMarket := by
  constructor <;> intro pr hpr <;> exact absurd hpr (by simp [emptyMarket])

theorem getMarket_getD_inv (s : SimState) (token_id : String)
    (hms : ∀ km ∈ s.market_states, MarketInv km.2) :
    MarketInv ((getMarket s token_id).getD emptyMarket) := by
  unfold getMarket
  cases hf : s.market_states.find? (fun kv => kv.1 == token_id) with
  | none => exact emptyMarket_inv
  | some km => exact hms km (List.mem_of_find?_eq_some hf)

theorem find?_append_fresh (l : List QueuedOrder) (o : QueuedOrder)
    (hfresh : ∀ o1 ∈ l, o1.order_id ≠ o.order_id) :
    (l ++ [o]).find? (fun o1 => o1.order_id == o.order_id) = some o := by
  induction l with
  | nil => simp
  | cons h0 rest ih =>
    rw [List.cons_append, List.find?_cons_of_neg _
      (by simpa using hfresh h0 (List.mem_cons_self _ _))]
    exact ih (fun o1 ho1 => hfresh o1 (List.mem_cons_of_mem _ ho1))

theorem execute_crossing_order_simInv (s : SimState) (oid : ℕ) (hs : SimInv s)
    (hrem : ∀ o ∈ s.orders, o.order_id = oid → 0 ≤ o.size_remaining) :
    SimInv (execute_crossing_order s oid) := by
  unfold execute_crossing_order
  cases hg : getOrder s oid with
  | none => exact hs
  | some o =>
    dsimp only
    cases hm : getMarket s o.token_id with
    | none => exact hs
    | some m =>
      dsimp only
      obtain ⟨homem, hoid⟩ := getOrder_mem s oid o hg
      have hrem0 : 0 ≤ o.size_remaining := hrem o homem hoid
      have huniq := getOrder_eq_unique s oid o hs.2.2.1 hg
      have hsub : ∀ (ws : List (ℚ × ℚ)),
          (∀ n, ((ws.take n).map Prod.snd).sum ≤ o.size_remaining) →
          SimInv ((ws.foldl (fun st pr => execute_fill st oid pr.1 pr.2 false) s)) := by
        intro ws hws
        obtain ⟨h1, h2, h3, h4⟩ := hs
        have hfr := foldl_execute_fill_frame ws s oid
        refine ⟨?_, ?_, ?_, ?_⟩
        · refine foldl_execute_fill_orderInv ws s oid h1 ?_
          intro o1 ho1 hid n
          rw [huniq o1 ho1 hid]
          exact hws n
        · rw [hfr.2.1]
          exact h2
        · rw [hfr.1]
          exact h3
        · intro o1 ho1
          rw [hfr.2.2]
          have hmm : o1.order_id ∈ (ws.foldl
              (fun st pr => execute_fill st oid pr.1 pr.2 false) s).orders.map
              QueuedOrder.order_id := List.mem_map_of_mem _ ho1
          rw [hfr.1] at hmm
          obtain ⟨o2, ho2, hideq⟩ := List.mem_map.1 hmm
          rw [← hideq]
          exact h4 o2 ho2
      cases o.side with
      | buy =>
        have hws := walkBook_take_sum (sortAsc m.ask_depth)
          (fun p => decide (p ≤ o.price)) o.size_remaining hrem0
        have hinv2 := hsub _ hws
        cases hg3 : getOrder ((walkBook (sortAsc m.ask_depth)
            (fun p => decide (p ≤ o.price)) o.size_remaining).foldl
            (fun st pr => execute_fill st oid pr.1 pr.2 false) s) oid with
        | none => exact hinv2
        | some o2 =>
          dsimp only
          split_ifs with hr
          · exact updOrder_simInv _ oid _ hinv2 (fun oo => rfl)
              (fun oo hoo hinv => ⟨hinv.2.1, hinv.2.1, hinv.2.2⟩)
          · exact hinv2
      | sell =>
        have hws := walkBook_take_sum (sortDesc m.bid_depth)
          (fun p => decide (o.price ≤ p)) o.size_remaining hrem0
        have hinv2 := hsub _ hws
        cases hg3 : getOrder ((walkBook (sortDesc m.bid_depth)
            (fun p => decide (o.price ≤ p)) o.size_remaining).foldl
            (fun st pr => execute_fill st oid pr.1 pr.2 false) s) oid with
        | none => exact hinv2
        | some o2 =>
          dsimp only
          split_ifs with hr
          · exact updOrder_simInv _ oid _ hinv2 (fun oo => rfl)
              (fun oo hoo hinv => ⟨hinv.2.1, hinv.2.1, hinv.2.2⟩)
          · exact hinv2

theorem check_immediate_fill_simInv (s : SimState) (oid : ℕ) (hs : SimInv s)
    (hrem : ∀ o ∈ s.orders, o.order_id = oid → 0 ≤ o.size_remaining) :
    SimInv (check_immediate_fill s oid) := by
  unfold check_immediate_fill
  cases hg : getOrder s oid with
  | none => exact hs
  | some o =>
    dsimp only
    cases hm : getMarket s o.token_id with
    | none => exact hs
    | some m =>
      dsimp only
      split_ifs with hc
      · exact execute_crossing_order_simInv s oid hs hrem
      · exact hs

end PolyMM

namespace PolyMM

theorem place_order_simInv (s : SimState) (token_id : String) (side : Side)
    (price size : ℚ) (hsize : 0 ≤ size) (hs : SimInv s) :
    SimInv (place_order s token_id side price size) := by
  obtain ⟨h1, h2, h3, h4⟩ := hs
  unfold place_order
  dsimp only
  apply check_immediate_fill_simInv
  · refine ⟨?_, h2, ?_, ?_⟩
    · intro o ho
      rcases List.mem_append.1 ho with hold | hnew
      · exact h1 o hold
      · rcases List.mem_singleton.1 hnew with rfl
        refine ⟨le_refl _, ?_, by simp, fun n => by simpa using hsize⟩
        exact get_queue_depth_nonneg _ price side
          (getMarket_getD_inv s token_id h2)
    · rw [List.map_append]
      rw [List.nodup_append]
      refine ⟨h3, List.nodup_singleton _, ?_⟩
      intro x hx
      obtain ⟨o1, ho1, rfl⟩ := List.mem_map.1 hx
      simp only [List.map_cons, List.map_nil, List.mem_singleton]
      intro hxeq
      exact absurd hxeq (Nat.ne_of_lt (h4 o1 ho1))
    · intro o ho
      rcases List.mem_append.1 ho with hold | hnew
      · exact Nat.lt_succ_of_lt (h4 o hold)
      · rcases List.mem_singleton.1 hnew with rfl
        exact Nat.lt_succ_self _
  · intro o ho hid
    rcases List.mem_append.1 ho with hold | hnew
    · exact absurd hid (Nat.ne_of_lt (h4 o hold))
    · rcases List.mem_singleton.1 hnew with rfl
      simpa [QueuedOrder.size_remaining] using hsize

theorem check_resting_fill_simInv (s : SimState) (oid : ℕ) (elapsed : ℚ)
    (hs : SimInv s) : SimInv (check_resting_fill s oid elapsed) := by
  unfold check_resting_fill
  cases hg : getOrder s oid with
  | none => exact hs
  | some o =>
    dsimp only
    by_cases hlive : o.is_live = true
    · rw [if_pos hlive]
      cases hm : getMarket s o.token_id with
      | none => exact hs
      | some m =>
        dsimp only
        have huniq := getOrder_eq_unique s oid o hs.2.2.1 hg
        apply execute_fill_simInv _ _ _ _ _ hs
        intro o1 ho1 hid
        rw [huniq o1 ho1 hid]
        by_cases hp : s.enable_partial_fills = true
        · rw [if_pos hp]
          exact min_le_left _ _
        · rw [if_neg hp]
    · rw [if_neg hlive]
      exact hs

theorem cancel_order_simInv (s : SimState) (oid : ℕ) (hs : SimInv s) :
    SimInv (cancel_order s oid).2 := by
  unfold cancel_order
  cases hg : getOrder s oid with
  | none => exact hs
  | some o =>
    dsimp only
    split_ifs with hlive
    · exact updOrder_simInv s oid _ hs (fun oo => rfl)
        (fun oo hoo hinv => ⟨hinv.1, hinv.2.1, hinv.2.2⟩)
    · exact hs

theorem cancel_all_orders_simInv (s : SimState) (token_id : Option String)
    (hs : SimInv s) : SimInv (cancel_all_orders s token_id) := by
  obtain ⟨h1, h2, h3, h4⟩ := hs
  refine ⟨?_, h2, ?_, ?_⟩
  · intro o ho
    obtain ⟨o1, ho1, rfl⟩ := List.mem_map.1 ho
    split_ifs with hc
    · exact ⟨(h1 o1 ho1).1, (h1 o1 ho1).2.1, (h1 o1 ho1).2.2⟩
    · exact h1 o1 ho1
  · show ((s.orders.map _).map QueuedOrder.order_id).Nodup
    rw [map_preserving_ids _ _ (fun o => by split_ifs <;> rfl)]
    exact h3
  · intro o ho
    obtain ⟨o1, ho1, rfl⟩ := List.mem_map.1 ho
    show (if _ then setStatus o1 OStatus.CANCELLED else o1).order_id < s.next_id
    split_ifs with hc
    · exact h4 o1 ho1
    · exact h4 o1 ho1

theorem update_orderbook_simInv (s : SimState) (token_id : String)
    (bids asks : List (ℚ × ℚ)) (hb : ∀ pr ∈ bids, 0 ≤ pr.2)
    (ha : ∀ pr ∈ asks, 0 ≤ pr.2) (hs : SimInv s) :
    SimInv (s.update_orderbook token_id bids asks) := by
  obtain ⟨h1, h2, h3, h4⟩ := hs
  exact ⟨h1, setMarket_inv _ _ _ h2 (update_from_orderbook_inv _ bids asks hb ha),
    h3, h4⟩

theorem record_market_trade_simInv (s : SimState) (token_id : String) (size : ℚ)
    (reset : Bool) (hs : SimInv s) :
    SimInv (s.record_market_trade token_id size reset) := by
  obtain ⟨h1, h2, h3, h4⟩ := hs
  exact ⟨h1, setMarket_inv _ _ _ h2
    (record_market_trade_inv _ size reset (getMarket_getD_inv s token_id h2)), h3, h4⟩

theorem simInv_step (s : SimState) (op : SimOp) (hs : SimInv s) (hop : wfOp op) :
    SimInv (applySimOp s op) := by
  cases op with
  | updateBook token_id bids asks =>
    exact update_orderbook_simInv s token_id bids asks hop.1 hop.2 hs
  | recordTrade token_id size reset =>
    exact record_market_trade_simInv s token_id size reset hs
  | place token_id side price size =>
    exact place_order_simInv s token_id side price size hop hs
  | restingFill oid elapsed =>
    exact check_resting_fill_simInv s oid elapsed hs
  | cancel oid =>
    exact cancel_order_simInv s oid hs
  | cancelAll token_id =>
    exact cancel_all_orders_simInv s token_id hs

theorem initSim_simInv : SimInv initSim := by
  refine ⟨?_, ?_, ?_, ?_⟩ <;> simp [initSim]

theorem applySimOps_simInv (ops : List SimOp) (hwf : ∀ op ∈ ops, wfOp op) :
    SimInv (applySimOps initSim ops) := by
  suffices haux : ∀ (l : List SimOp) (s : SimState), SimInv s →
      (∀ op ∈ l, wfOp op) → SimInv (l.foldl applySimOp s) by
    exact haux ops initSim initSim_simInv hwf
  intro l
  induction l with
  | nil => intro s hss _; exact hss
  | cons op rest ih =>
    intro s hss hwl
    exact ih (applySimOp s op)
      (simInv_step s op hss (hwl op (List.mem_cons_self _ _)))
      (fun o ho => hwl o (List.mem_cons_of_mem _ ho))

end PolyMM

namespace PolyMM

/-- C8: after any well-formed sequence of simulator operations starting
from a fresh simulator, every order satisfies
`queue_position ≤ initial_queue_depth` and `size_matched ≤ size`, and
every prefix of its fill log sums to at most the order size — i.e. every
individual fill executed was capped at the size remaining before it. -/
theorem c8_simulator_order_invariants (ops : List SimOp)
    (hwf : ∀ op ∈ ops, wfOp op) :
    ∀ o ∈ (applySimOps initSim ops).orders,
      o.queue_position ≤ o.initial_queue_depth ∧
      o.size_matched ≤ o.size ∧
      (∀ n, ((o.fills.take n).map Prod.snd).sum ≤ o.size) := by
  intro o ho
  obtain ⟨hq, hq0, hm, hpre⟩ := (applySimOps_simInv ops hwf).1 o ho
  refine ⟨hq, ?_, hpre⟩
  have h := hpre o.fills.length
  rw [List.take_length] at h
  rw [hm]
  exact h

/-- Scenario-S4 operation sequence: a book with 500 ahead of the 0.40
bid, a resting bid placed there, then market trades totalling 450. -/
def c7Ops : List SimOp :=
  [SimOp.updateBook "A" [(40/100, 500)] [(45/100, 100)],
   SimOp.place "A" Side.buy (40/100) 50,
   SimOp.recordTrade "A" 450 false]

theorem c7_state_eval : applySimOps initSim c7Ops =
    ⟨0, 0, true, 1000,
     [⟨0, "A", Side.buy, 40/100, 50, 0, OStatus.LIVE, 500, 500, []⟩],
     [],
     [("A", ⟨some (40/100), some (45/100),
        [(40/100, 500)], [(45/100, 100)], 450, 1⟩)],
     1⟩ := by
  have h1 : applySimOp initSim
      (SimOp.updateBook "A" [(40/100, 500)] [(45/100, 100)]) =
      ⟨0, 0, true, 1000, [], [],
       [("A", ⟨some (40/100), some (45/100),
          [(40/100, 500)], [(45/100, 100)], 0, 0⟩)], 0⟩ := by
    simp [applySimOp, SimState.update_orderbook, getMarket, initSim, setMarket,
      MarketState.update_from_orderbook, dictOfLevels, dsetPrice, emptyMarket,
      List.max?, List.min?]
  have h2 : applySimOp
      (⟨0, 0, true, 1000, [], [],
        [("A", ⟨some (40/100), some (45/100),
           [(40/100, 500)], [(45/100, 100)], 0, 0⟩)], 0⟩ : SimState)
      (SimOp.place "A" Side.buy (40/100) 50) =
      ⟨0, 0, true, 1000,
       [⟨0, "A", Side.buy, 40/100, 50, 0, OStatus.LIVE, 500, 500, []⟩],
       [],
       [("A", ⟨some (40/100), some (45/100),
          [(40/100, 500)], [(45/100, 100)], 0, 0⟩)],
       1⟩ := by
    simp [applySimOp, place_order, getMarket,
      MarketState.get_queue_depth_at_price, check_immediate_fill, getOrder]
    norm_num
  have h3 : applySimOp
      (⟨0, 0, true, 1000,
        [⟨0, "A", Side.buy, 40/100, 50, 0, OStatus.LIVE, 500, 500, []⟩],
        [],
        [("A", ⟨some (40/100), some (45/100),
           [(40/100, 500)], [(45/100, 100)], 0, 0⟩)],
        1⟩ : SimState)
      (SimOp.recordTrade "A" 450 false) =
      ⟨0, 0, true, 1000,
       [⟨0, "A", Side.buy, 40/100, 50, 0, OStatus.LIVE, 500, 500, []⟩],
       [],
       [("A", ⟨some (40/100), some (45/100),
          [(40/100, 500)], [(45/100, 100)], 450, 1⟩)],
       1⟩ := by
    simp [applySimOp, SimState.record_market_trade, getMarket, setMarket,
      MarketState.record_market_trade]
  simp only [applySimOps, c7Ops, List.foldl_cons, List.foldl_nil]
  rw [h1, h2, h3]

/-- Witness for `c8_simulator_order_invariants` on the scenario-S4
operation sequence and its resting order. -/
theorem c8_simulator_order_invariants_witness :
    (⟨0, "A", Side.buy, 40/100, 50, 0, OStatus.LIVE, 500, 500, []⟩ : QueuedOrder) ∈
      (applySimOps initSim c7Ops).orders ∧
    ((⟨0, "A", Side.buy, 40/100, 50, 0, OStatus.LIVE, 500, 500, []⟩ :
        QueuedOrder).queue_position ≤
      (⟨0, "A", Side.buy, 40/100, 50, 0, OStatus.LIVE, 500, 500, []⟩ :
        QueuedOrder).initial_queue_depth ∧
     (⟨0, "A", Side.buy, 40/100, 50, 0, OStatus.LIVE, 500, 500, []⟩ :
        QueuedOrder).size_matched ≤
      (⟨0, "A", Side.buy, 40/100, 50, 0, OStatus.LIVE, 500, 500, []⟩ :
        QueuedOrder).size ∧
     (∀ n, (((⟨0, "A", Side.buy, 40/100, 50, 0, OStatus.LIVE, 500, 500, []⟩ :
        QueuedOrder).fills.take n).map Prod.snd).sum ≤
      (⟨0, "A", Side.buy, 40/100, 50, 0, OStatus.LIVE, 500, 500, []⟩ :
        QueuedOrder).size)) := by
  have hwf : ∀ op ∈ c7Ops, wfOp op := by
    intro op hop
    fin_cases hop
    · exact ⟨by intro pr hpr; fin_cases hpr; norm_num,
        by intro pr hpr; fin_cases hpr; norm_num⟩
    · show (0:ℚ) ≤ 50
      norm_num
    · trivial
  have hmem : (⟨0, "A", Side.buy, 40/100, 50, 0, OStatus.LIVE, 500, 500, []⟩ :
      QueuedOrder) ∈ (applySimOps initSim c7Ops).orders := by
    rw [c7_state_eval]
    exact List.mem_singleton.2 rfl
  exact ⟨hmem, c8_simulator_order_invariants c7Ops hwf _ hmem⟩

/-- C7 (code slip): `record_market_trade` only updates the volume tally —
it never decrements any order's `queue_position` — so after the S4
scenario (depth 500 ahead, then 450 of market trades) the resting order's
queue position is still its full initial depth and the queue-progress
multiplier of the fill probability is still stuck at its floor 0.2,
instead of rising toward 1.0 as the spec requires. -/
theorem c7_queue_position_never_advances :
    (∀ (s : SimState) (token_id : String) (size : ℚ) (reset : Bool),
      (s.record_market_trade token_id size reset).orders = s.orders) ∧
    (∃ o, getOrder (applySimOps initSim c7Ops) 0 = some o ∧
      o.queue_position = 500 ∧ o.initial_queue_depth = 500 ∧
      queue_factor o = 1/5) := by
  constructor
  · intro s token_id size reset
    rfl
  · refine ⟨⟨0, "A", Side.buy, 40/100, 50, 0, OStatus.LIVE, 500, 500, []⟩, ?_, rfl, rfl, ?_⟩
    · rw [c7_state_eval]
      rfl
    · unfold queue_factor
      norm_num

end PolyMM

namespace PolyMM

theorem is_live_iff (o : QueuedOrder) :
    o.is_live = true ↔ (o.status = OStatus.LIVE ∨ o.status = OStatus.PARTIAL) := by
  unfold QueuedOrder.is_live
  cases o.status <;> simp

theorem find?_map_id_pred (l : List QueuedOrder) (oid : ℕ)
    (g : QueuedOrder → QueuedOrder) (hg : ∀ o, (g o).order_id = o.order_id) :
    (l.map g).find? (fun o => o.order_id == oid) =
      (l.find? (fun o => o.order_id == oid)).map g := by
  induction l with
  | nil => rfl
  | cons h0 rest ih =>
    by_cases hid : h0.order_id = oid
    · rw [List.map_cons, List.find?_cons_of_pos _ (by simp [hg, hid]),
        List.find?_cons_of_pos _ (by simp [hid])]
      rfl
    · rw [List.map_cons, List.find?_cons_of_neg _ (by simp [hg, hid]),
        List.find?_cons_of_neg _ (by simp [hid])]
      exact ih

theorem getOrder_updOrder (s : SimState) (oid : ℕ) (f : QueuedOrder → QueuedOrder)
    (hf : ∀ o, (f o).order_id = o.order_id) :
    getOrder (updOrder s oid f) oid =
      (getOrder s oid).map (fun o => if o.order_id = oid then f o else o) := by
  unfold getOrder updOrder
  dsimp only
  exact find?_map_id_pred s.orders oid _ (fun o => by split_ifs <;> simp [hf])

/-- C10: `cancel_order` returns true and cancels the order exactly when
an order with the given id exists and is LIVE or PARTIAL; in every other
case it returns false and the simulator state is unchanged, so cancelling
the same order twice returns false the second time. -/
theorem c10_cancel_order_iff (s : SimState) (oid : ℕ) :
    ((cancel_order s oid).1 = true ↔
      ∃ o, getOrder s oid = some o ∧
        (o.status = OStatus.LIVE ∨ o.status = OStatus.PARTIAL)) ∧
    (∀ o, getOrder s oid = some o →
      (o.status = OStatus.LIVE ∨ o.status = OStatus.PARTIAL) →
      getOrder (cancel_order s oid).2 oid = some (setStatus o OStatus.CANCELLED) ∧
      ∀ o1 ∈ s.orders, o1.order_id ≠ oid → o1 ∈ (cancel_order s oid).2.orders) ∧
    ((cancel_order s oid).1 = false → (cancel_order s oid).2 = s) ∧
    ((cancel_order s oid).1 = true →
      (cancel_order (cancel_order s oid).2 oid).1 = false) := by
  have hbody : ∀ (o : QueuedOrder), getOrder s oid = some o → o.is_live = true →
      getOrder (cancel_order s oid).2 oid =
        some (setStatus o OStatus.CANCELLED) := by
    intro o hg hlive
    have hsnd : (cancel_order s oid).2 =
        updOrder s oid (fun oo => setStatus oo OStatus.CANCELLED) := by
      unfold cancel_order
      rw [hg]
      dsimp only
      rw [if_pos hlive]
    rw [hsnd, getOrder_updOrder s oid
      (fun oo => setStatus oo OStatus.CANCELLED) (fun oo => rfl), hg]
    have hid : o.order_id = oid := (getOrder_mem s oid o hg).2
    simp [hid]
  refine ⟨?_, ?_, ?_, ?_⟩
  · constructor
    · intro htrue
      unfold cancel_order at htrue
      cases hg : getOrder s oid with
      | none =>
        rw [hg] at htrue
        exact absurd htrue (by simp)
      | some o =>
        rw [hg] at htrue
        dsimp only at htrue
        split_ifs at htrue with hlive
        exact ⟨o, rfl, (is_live_iff o).1 hlive⟩
    · rintro ⟨o, hg, hstat⟩
      unfold cancel_order
      rw [hg]
      dsimp only
      rw [if_pos ((is_live_iff o).2 hstat)]
  · intro o hg hstat
    refine ⟨hbody o hg ((is_live_iff o).2 hstat), ?_⟩
    intro o1 ho1 hne
    have hsnd : (cancel_order s oid).2 =
        updOrder s oid (fun oo => setStatus oo OStatus.CANCELLED) := by
      unfold cancel_order
      rw [hg]
      dsimp only
      rw [if_pos ((is_live_iff o).2 hstat)]
    rw [hsnd]
    show o1 ∈ s.orders.map
      (fun oo => if oo.order_id = oid then setStatus oo OStatus.CANCELLED else oo)
    have hkeep : (if o1.order_id = oid then setStatus o1 OStatus.CANCELLED else o1) =
        o1 := if_neg hne
    rw [← hkeep]
    exact List.mem_map_of_mem _ ho1
  · intro hfalse
    by_cases hex : ∃ o, getOrder s oid = some o ∧ o.is_live = true
    · obtain ⟨o, hg, hlive⟩ := hex
      have hcontra : (cancel_order s oid).1 = true := by
        unfold cancel_order
        rw [hg]
        dsimp only
        rw [if_pos hlive]
      rw [hcontra] at hfalse
      exact absurd hfalse (by simp)
    · unfold cancel_order
      cases hg : getOrder s oid with
      | none => rfl
      | some o =>
        dsimp only
        rw [if_neg (fun hlive => hex ⟨o, hg, hlive⟩)]
  · intro htrue
    obtain ⟨o, hg, hstat⟩ : ∃ o, getOrder s oid = some o ∧
        (o.status = OStatus.LIVE ∨ o.status = OStatus.PARTIAL) := by
      unfold cancel_order at htrue
      cases hg : getOrder s oid with
      | none =>
        rw [hg] at htrue
        exact absurd htrue (by simp)
      | some o =>
        rw [hg] at htrue
        dsimp only at htrue
        split_ifs at htrue with hlive
        exact ⟨o, rfl, (is_live_iff o).1 hlive⟩
    have h2 := hbody o hg ((is_live_iff o).2 hstat)
    set X := (cancel_order s oid).2 with hX
    unfold cancel_order
    rw [h2]
    dsimp only
    rw [if_neg (by simp [QueuedOrder.is_live, setStatus])]

/-- Witness for `c10_cancel_order_iff`: cancelling the live S4 order
succeeds once and fails the second time. -/
theorem c10_cancel_order_iff_witness :
    (cancel_order (applySimOps initSim c7Ops) 0).1 = true ∧
    (cancel_order (cancel_order (applySimOps initSim c7Ops) 0).2 0).1 = false := by
  have hg : getOrder (applySimOps initSim c7Ops) 0 =
      some ⟨0, "A", Side.buy, 40/100, 50, 0, OStatus.LIVE, 500, 500, []⟩ := by
    rw [c7_state_eval]
    rfl
  have h := c10_cancel_order_iff (applySimOps initSim c7Ops) 0
  have htrue : (cancel_order (applySimOps initSim c7Ops) 0).1 = true :=
    h.1.2 ⟨_, hg, Or.inl rfl⟩
  exact ⟨htrue, h.2.2.2 htrue⟩

end PolyMM
